import Mathlib

set_option autoImplicit false

/-!
Verification development for the ukmm mod-merging core: a shallow embedding of
the diff/merge patch algebra (`uk-content`) and of the deployment pending-log
machinery (`uk-manager`), with theorems settling the stated algebraic laws.

Machine integers (`u8`, `u32`, `i32`) are modelled as `Nat`/`Int`; the code
under study only compares or maxes them, so no overflow is observable.
Floating-point fields (`f32`) are modelled as `Int`: the diff/merge code uses
them only through equality tests.
-/

/-! ## Shop data (src/uk-content/src/actor/shop.rs)

`ShopItem` mirrors the Rust struct field for field.  A `ShopTable` is an
`IndexMap<String, ShopItem>`, embedded as an association list together with
the `IndexMap` collection semantics (`icollect`: first-occurrence key order,
last-occurrence value wins) and the order-insensitive `IndexMap` equality
(`imapEq`). -/

structure ShopItem where
  sort : Nat
  num : Nat
  adjust_price : Nat
  look_get_flag : Bool
  amount : Nat
  delete : Bool
deriving DecidableEq

/-- ShopItem::with_delete sets the delete flag. -/
def ShopItem.with_delete (s : ShopItem) : ShopItem := { s with delete := true }

/-- Builds a shop item whose `num` field carries a distinguishing number,
matching the numeric values used in the spec's concrete scenario. -/
def shopItem (n : Nat) : ShopItem := ⟨0, n, 0, false, 0, false⟩

abbrev ShopTable := List (String × ShopItem)

/-- Keys of an association list, in order. -/
def keysOf {V : Type} (l : List (String × V)) : List String := l.map Prod.fst

/-- First-match lookup, as `IndexMap::get` on a duplicate-free map. -/
def lookupKV {V : Type} (l : List (String × V)) (k : String) : Option V :=
  (l.find? (fun p => decide (p.1 = k))).map Prod.snd

def containsKey {V : Type} (l : List (String × V)) (k : String) : Bool :=
  (lookupKV l k).isSome

/-- Value of the last occurrence of key `k`, mirroring that inserting a
duplicate key into an `IndexMap` overwrites the value. -/
def lastVal {V : Type} (l : List (String × V)) (k : String) : Option V :=
  (l.reverse.find? (fun p => decide (p.1 = k))).map Prod.snd

/-- Collecting an iterator of pairs into an `IndexMap`: keys appear in order
of first occurrence, each carrying the value of its last occurrence. -/
def icollect {V : Type} (l : List (String × V)) : List (String × V) :=
  (l.map Prod.fst).dedup.filterMap (fun k => (lastVal l k).map (fun v => (k, v)))

/-- IndexMap `PartialEq`: equal length and every pair of one map present in
the other, regardless of order. -/
def imapEq (a b : ShopTable) : Bool :=
  a.length == b.length &&
    a.all (fun p => match lookupKV b p.1 with
      | some v => v == p.2
      | none => false)

/-- merge_table from shop.rs: chain base and diff into one `IndexMap`
(last value wins), then drop entries flagged for deletion. -/
def merge_table (base diff : ShopTable) : ShopTable :=
  (icollect (base ++ diff)).filter (fun p => !p.2.delete)

/-- Per-table diff, the closure inlined in `ShopData::diff`: entries of the
mod table that are new or changed, then entries of the base table absent from
the mod table as tombstones. -/
def diff_table (self_table other_table : ShopTable) : ShopTable :=
  icollect
    (other_table.filterMap (fun q =>
      match lookupKV self_table q.1 with
      | some sd => if sd = q.2 then none else some q
      | none => some q)
    ++ self_table.filterMap (fun q =>
      if containsKey other_table q.1 then none
      else some (q.1, q.2.with_delete)))

/-- ShopData is an `IndexMap<String, Option<ShopTable>>`. -/
abbrev ShopData := List (String × Option ShopTable)

/-- ShopData::diff from shop.rs, field for field. -/
def ShopData.diff (self other : ShopData) : ShopData :=
  icollect (other.filterMap (fun p =>
    match lookupKV self p.1 with
    | some (some self_table) =>
      match p.2 with
      | some other_table =>
        if imapEq self_table other_table then none
        else some (p.1, some (diff_table self_table other_table))
      | none => some (p.1, none)
    | _ => some p))

/-- ShopData::merge from shop.rs: for each base entry with a table, keep it
only when the diff also has a table for that name (merging them); a base
entry without a table takes the diff's flattened entry; names only in the
diff are appended. -/
def ShopData.merge (base diff : ShopData) : ShopData :=
  icollect
    (base.filterMap (fun p =>
      match p.2 with
      | some base_table =>
        match lookupKV diff p.1 with
        | some (some diff_table) => some (p.1, some (merge_table base_table diff_table))
        | _ => none
      | none => some (p.1, (lookupKV diff p.1).join))
    ++ diff.filterMap (fun p =>
      if containsKey base p.1 then none else some p))

/-- Order-insensitive equality of two shop data maps, as derived by Rust for
`IndexMap<String, Option<ShopTable>>`. -/
def shopDataEq (a b : ShopData) : Bool :=
  a.length == b.length &&
    a.all (fun p => match lookupKV b p.1 with
      | some t2 =>
        match p.2, t2 with
        | none, none => true
        | some x, some y => imapEq x y
        | _, _ => false
      | none => false)

/-! ## Positional collections (DeleteVec) and ScaleTranslate

The `DeleteVec` source file (`uk-content/src/util/mod.rs`) is not part of the
corpus; only its users are. -/

/-- Modelled from the spec: a PositionalCollection is an ordered sequence
where element identity is the element's content, each entry optionally
flagged as a tombstone. This stands in for `uk_content::util::DeleteVec`,
whose defining module is missing from the corpus. -/
structure DeleteVec (α : Type) where
  entries : List (α × Bool)
deriving DecidableEq

def DeleteVec.values {α : Type} (v : DeleteVec α) : List α := v.entries.map Prod.fst

def DeleteVec.deleted {α : Type} (v : DeleteVec α) : List α :=
  (v.entries.filter (fun e => e.2)).map Prod.fst

def DeleteVec.kept {α : Type} (v : DeleteVec α) : List α :=
  (v.entries.filter (fun e => !e.2)).map Prod.fst

/-- Modelled from the spec: the PositionalCollection diff keeps every item of
`other` missing from `self` and tombstones every item of `self` missing from
`other`, reconciling by value equality. -/
def DeleteVec.diff {α : Type} [DecidableEq α] (self other : DeleteVec α) : DeleteVec α :=
  ⟨(other.values.filter (fun x => decide (x ∉ self.values))).map (fun x => (x, false))
    ++ (self.values.filter (fun x => decide (x ∉ other.values))).map (fun x => (x, true))⟩

/-- Modelled from the spec: the PositionalCollection merge removes the
patch's tombstoned items from `self` and appends the patch's kept items not
already present, in patch order. -/
def DeleteVec.merge {α : Type} [DecidableEq α] (self diff : DeleteVec α) : DeleteVec α :=
  ⟨self.entries.filter (fun e => decide (e.1 ∉ diff.deleted))
    ++ (diff.kept.filter (fun x => decide (x ∉ self.values))).map (fun x => (x, false))⟩

/-- ScaleTranslate from map/mainfield/mod.rs; the `f32` components are
modelled as `Int` (only equality is used on them). -/
structure ScaleTranslate where
  scale : DeleteVec (Char × Int)
  translate : DeleteVec (Char × Int)
deriving DecidableEq

/-- ScaleTranslate::diff: field-wise DeleteVec diff. -/
def ScaleTranslate.diff (self other : ScaleTranslate) : ScaleTranslate :=
  ⟨self.scale.diff other.scale, self.translate.diff other.translate⟩

/-- ScaleTranslate::merge exactly as written in the source: the `translate`
field is computed from `self.scale`, not `self.translate` (mod.rs line 331). -/
def ScaleTranslate.merge (self diff : ScaleTranslate) : ScaleTranslate :=
  ⟨self.scale.merge diff.scale, self.scale.merge diff.translate⟩

/-! Concrete values for the round-trip and idempotence failing inputs. -/

def shopA : ShopData :=
  [("T1", some [("A", shopItem 1)]), ("T2", some [("B", shopItem 1)])]

def shopB : ShopData :=
  [("T1", some [("A", shopItem 2)]), ("T2", some [("B", shopItem 1)])]

def stA : ScaleTranslate :=
  ⟨⟨[((⟨'x', 1⟩ : Char × Int), false)]⟩, ⟨[((⟨'x', 2⟩ : Char × Int), false)]⟩⟩

def stB : ScaleTranslate :=
  ⟨⟨[((⟨'x', 1⟩ : Char × Int), false)]⟩, ⟨[((⟨'x', 3⟩ : Char × Int), false)]⟩⟩

/-! ## Keyed collections (DeleteMap) and LocationMarker
(src/crates/uk-content/src/map/mainfield/location_marker.rs) -/

/-- Modelled from the spec: a KeyedCollection is an insertion-ordered map
with unique keys, each entry optionally flagged as a tombstone. This stands
in for `uk_content::util::DeleteMap`, whose defining module is missing from
the corpus. -/
structure DeleteMap (K V : Type) where
  entries : List (K × V × Bool)
deriving DecidableEq

def DeleteMap.keys {K V : Type} (m : DeleteMap K V) : List K := m.entries.map Prod.fst

def DeleteMap.get {K V : Type} [DecidableEq K] (m : DeleteMap K V) (k : K) : Option V :=
  (m.entries.find? (fun e => decide (e.1 = k))).map (fun e => e.2.1)

/-- Modelled from the spec: the KeyedCollection diff keeps every key of
`other` that is new or carries a changed value, and tombstones every key of
`self` absent from `other`. -/
def DeleteMap.diff {K V : Type} [DecidableEq K] [DecidableEq V]
    (self other : DeleteMap K V) : DeleteMap K V :=
  ⟨(other.entries.filter (fun e => decide (self.get e.1 ≠ some e.2.1))).map
      (fun e => (e.1, e.2.1, false))
    ++ (self.entries.filter (fun e => decide (e.1 ∉ other.keys))).map
      (fun e => (e.1, e.2.1, true))⟩

/-- Modelled from the spec: the KeyedCollection merge replaces values for
patch keys, removes tombstoned keys, and appends newly introduced keys in
patch order. -/
def DeleteMap.merge {K V : Type} [DecidableEq K] [DecidableEq V]
    (self diff : DeleteMap K V) : DeleteMap K V :=
  ⟨(self.entries.filterMap (fun e =>
      match diff.entries.find? (fun d => decide (d.1 = e.1)) with
      | some d => if d.2.2 then none else some (e.1, d.2.1, false)
      | none => some e))
    ++ (diff.entries.filter (fun d => decide (¬ d.2.2 ∧ d.1 ∉ self.keys)))⟩

inductive LocationIcon where
  | Castle | CheckPoint | Dungeon | Hatago | Labo
  | RemainsElectric | RemainsFire | RemainsWater | RemainsWind
  | ShopBougu | ShopColor | ShopJewel | ShopYadoya | ShopYorozu
  | StartPoint | Tower | Village
deriving DecidableEq

inductive GameMap where
  | AocField | CDungeon | MainField | MainFieldDungeon
deriving DecidableEq

structure MapUnit where
  row : String
  col : Nat
deriving DecidableEq

structure MapAndUnit where
  map : GameMap
  unit : MapUnit
deriving DecidableEq

structure LocationMarker where
  icon : Option LocationIcon
  message_id : Option String
  priority : Option Int
  save_flag : Option String
  translate : DeleteMap Char Int
  warp_dest_map_name : Option MapAndUnit
  warp_dest_pos_name : Option String
deriving DecidableEq

/-- Rust's `cond.then(|| v).unwrap()`: yields `v` when the condition holds
and panics otherwise; the panic is modelled as `none`. -/
def thenUnwrap {α : Type} (c : Prop) [Decidable c] (v : α) : Option α :=
  if c then some v else none

/-- LocationMarker::diff exactly as written: every scalar field is produced
by `.ne(..).then(..).unwrap()`, which panics (`none`) whenever the field is
unchanged between `self` and `other`. -/
def LocationMarker.diff (self other : LocationMarker) : Option LocationMarker := do
  let icon ← thenUnwrap (other.icon ≠ self.icon) other.icon
  let message_id ← thenUnwrap (other.message_id ≠ self.message_id) other.message_id
  let priority ← thenUnwrap (other.priority ≠ self.priority) other.priority
  let save_flag ← thenUnwrap (other.save_flag ≠ self.save_flag) other.save_flag
  let translate := self.translate.diff other.translate
  let warp_dest_map_name ←
    thenUnwrap (other.warp_dest_map_name ≠ self.warp_dest_map_name) other.warp_dest_map_name
  let warp_dest_pos_name ←
    thenUnwrap (other.warp_dest_pos_name ≠ self.warp_dest_pos_name) other.warp_dest_pos_name
  pure ⟨icon, message_id, priority, save_flag, translate,
    warp_dest_map_name, warp_dest_pos_name⟩

/-- LocationMarker::merge: each scalar field keeps `self` when the diff
agrees and otherwise takes the diff (`.then(..).or_else(..).unwrap()`, which
cannot panic). -/
def LocationMarker.merge (self diff : LocationMarker) : LocationMarker :=
  ⟨(thenUnwrap (diff.icon = self.icon) self.icon).getD diff.icon,
    (thenUnwrap (diff.message_id = self.message_id) self.message_id).getD diff.message_id,
    (thenUnwrap (diff.priority = self.priority) self.priority).getD diff.priority,
    (thenUnwrap (diff.save_flag = self.save_flag) self.save_flag).getD diff.save_flag,
    self.translate.merge diff.translate,
    (thenUnwrap (diff.warp_dest_map_name = self.warp_dest_map_name)
      self.warp_dest_map_name).getD diff.warp_dest_map_name,
    (thenUnwrap (diff.warp_dest_pos_name = self.warp_dest_pos_name)
      self.warp_dest_pos_name).getD diff.warp_dest_pos_name⟩

/-- A concrete location marker, as decoded from a map unit (decoding always
fills `priority` and `save_flag` with `some`). -/
def marker0 : LocationMarker :=
  ⟨some LocationIcon.Village, some "msg", some 1, some "flag",
    ⟨[(⟨'x', 5, false⟩ : Char × Int × Bool)]⟩, none, none⟩

/-- Concrete shop tables for the spec's concrete scenario 1. -/
def tblBase : ShopTable := [("A", shopItem 1), ("B", shopItem 2)]

def tblMod : ShopTable := [("B", shopItem 3), ("C", shopItem 4)]

/-! ## Status effects (src/crates/uk-content/src/eco/status.rs)

`StatusEffectValues` is either the `Special` variant or a `Normal` list of
indexed values; diff and merge panic when the two variants differ, modelled
by an `Option` result (`none` = panic). The `(i32, f32)` pairs are modelled
as `(Int, Int)`. -/

inductive StatusEffectValues where
  | Special : StatusEffectValues
  | Normal : DeleteVec (Int × Int) → StatusEffectValues
deriving DecidableEq

/-- StatusEffectValues::diff; the catch-all arm panics with "Attempted to
diff incompatible status effect types". -/
def StatusEffectValues.diff (self other : StatusEffectValues) : Option StatusEffectValues :=
  match self, other with
  | .Special, .Special => some .Special
  | .Normal self_values, .Normal other_values => some (.Normal (self_values.diff other_values))
  | _, _ => none

/-- StatusEffectValues::merge; the catch-all arm panics with "Attempted to
merge incompatible status effect types". -/
def StatusEffectValues.merge (self diff : StatusEffectValues) : Option StatusEffectValues :=
  match self, diff with
  | .Special, .Special => some .Special
  | .Normal self_values, .Normal diff_values => some (.Normal (self_values.merge diff_values))
  | _, _ => none

/-- Two field values have differing kind when one is the Special variant and
the other the Normal variant. -/
def kindMismatch (a b : StatusEffectValues) : Bool :=
  match a, b with
  | .Special, .Normal _ => true
  | .Normal _, .Special => true
  | _, _ => false

/-! ## Resource size table reconciliation
(src/crates/uk-manager/src/deploy.rs, Manager::apply_rstb)

The table maps canonical paths to recorded sizes; updates are
path-to-size-or-removal pairs with distinct paths (they come from a map). -/

abbrev RstbTable := List (String × Nat)

def rstbGet (t : RstbTable) (p : String) : Option Nat := lookupKV t p

def rstbSet (t : RstbTable) (p : String) (n : Nat) : RstbTable :=
  match t with
  | [] => [(p, n)]
  | q :: rest => if q.1 = p then (p, n) :: rest else q :: rstbSet rest p n

def rstbRemove (t : RstbTable) (p : String) : RstbTable :=
  t.filter (fun q => decide (q.1 ≠ p))

/-- One iteration of the update loop in apply_rstb: a removal drops the
entry; a size is written only when the entry is absent or smaller. -/
def applyRstbUpdate (t : RstbTable) (u : String × Option Nat) : RstbTable :=
  match u.2 with
  | some size =>
    match rstbGet t u.1 with
    | some s => if s < size then rstbSet t u.1 size else t
    | none => rstbSet t u.1 size
  | none => rstbRemove t u.1

/-- The update loop of Manager::apply_rstb over the whole update set. -/
def apply_rstb (updates : List (String × Option Nat)) (t : RstbTable) : RstbTable :=
  updates.foldl applyRstbUpdate t

/-! ## Orphan handling (src/crates/uk-manager/src/deploy.rs,
Manager::handle_orphans and Manager::apply) -/

/-- A manifest: the content paths and downloadable-content paths one mod
touches. -/
structure Manifest where
  content_files : List String
  aoc_files : List String
deriving DecidableEq

/-- The orphan sets computed by handle_orphans: per tree, the files of the
pass manifest missing from the union of every active mod's manifest. These
are queued as deletes (extend_deletes) and physically removed. -/
def orphansOf (total manifest : Manifest) : Manifest :=
  ⟨manifest.content_files.filter (fun f => decide (f ∉ total.content_files)),
    manifest.aoc_files.filter (fun f => decide (f ∉ total.aoc_files))⟩

/-- The manifest retained by handle_orphans after
`retain(|f| !orphans.contains(f))`. -/
def retainedOf (total manifest : Manifest) : Manifest :=
  ⟨manifest.content_files.filter
      (fun f => decide (f ∉ (orphansOf total manifest).content_files)),
    manifest.aoc_files.filter
      (fun f => decide (f ∉ (orphansOf total manifest).aoc_files))⟩

/-- The copies scheduled by Manager::apply in the with-manifest branch: it
calls extend_copies on the manifest left after handle_orphans pruned the
orphans. -/
def scheduledCopies (total manifest : Manifest) : Manifest :=
  retainedOf total manifest

/-- Concrete manifests: path a is claimed by some active mod but is not in
the pass manifest. -/
def totalCE : Manifest := ⟨["a", "b"], []⟩

def manifestCE : Manifest := ⟨["b"], []⟩

/-! ## File copy step (src/crates/uk-manager/src/deploy/file.rs, File::copy)

A deployed file is `(content, modification time)`; `none` means the path
does not exist. `File::copy` returns the new destination state plus whether
a warning was logged; errors would be the `error` case of `Except`. -/

abbrev FileState := Option (Nat × Nat)

/-- File::copy: when the source exists the destination becomes a byte copy
carrying the source's modification time; when the source is missing a
warning is logged, an existing destination is removed, and the call still
succeeds. -/
def fileCopy (src dst : FileState) : Except String (FileState × Bool) :=
  match src with
  | some f => Except.ok (some (f.1, f.2), false)
  | none =>
    match dst with
    | some _ => Except.ok (none, true)
    | none => Except.ok (none, true)

/-! ## Pending-log folder trees
(src/crates/uk-manager/src/deploy/folder.rs and pending_log.rs)

A `Folder` is a tree of named subfolders plus leaf file names. Path strings
are split on the separator; a segment containing a dot is the file-name
convention terminating recursion. -/

inductive Folder where
  | mk : List (String × Folder) → List String → Folder

def Folder.folders : Folder → List (String × Folder)
  | .mk fs _ => fs

def Folder.files : Folder → List String
  | .mk _ fl => fl

/-- Folder::has_some: any file or subfolder present. -/
def Folder.has_some (f : Folder) : Bool :=
  !f.files.isEmpty || !f.folders.isEmpty

def emptyFolder : Folder := .mk [] []

/-- Insert-or-replace for an association list, as `BTreeMap::insert`
observed through lookups. -/
def upsertKV {V : Type} (l : List (String × V)) (k : String) (v : V) : List (String × V) :=
  match l with
  | [] => [(k, v)]
  | q :: rest => if q.1 = k then (k, v) :: rest else q :: upsertKV rest k v

/-- `BTreeSet::insert` observed through membership. -/
def insertFileName (files : List String) (name : String) : List String :=
  if name ∈ files then files else files ++ [name]

/-- Whether a path segment contains a literal dot (`name.contains('.')` in
the source). -/
def hasDot (s : String) : Bool := decide ('.' ∈ s.toList)

/-- Splitting a path string on the separator character, as `PathBuf::iter`
over the canonical paths stored in manifests. -/
def splitOnChar (sep : Char) (cs : List Char) : List (List Char) :=
  match cs with
  | [] => [[]]
  | c :: rest =>
    if c = sep then [] :: splitOnChar sep rest
    else
      match splitOnChar sep rest with
      | [] => [[c]]
      | seg :: segs => (c :: seg) :: segs

def splitPath (s : String) : List String :=
  (splitOnChar '/' s.toList).map (fun cs => String.mk cs)

/-- Folder::extend_iter: the next segment becomes a file entry when it
contains a dot, otherwise the remaining segments are folded into the
(possibly fresh) subfolder of that name; running out of segments is an
error. -/
def Folder.extend_iter (f : Folder) (segs : List String) : Except String Folder :=
  match segs with
  | [] => .error "path is empty"
  | name :: rest =>
    if hasDot name then
      .ok (.mk f.folders (insertFileName f.files name))
    else
      match ((lookupKV f.folders name).getD emptyFolder).extend_iter rest with
      | .ok sub2 => .ok (.mk (upsertKV f.folders name sub2) f.files)
      | .error e => .error e

/-- One path of convert_set inside PendingLog::try_from<OldPendingLog>: the
first segment is inspected, and a first segment containing a dot is silently
skipped (the source has no else branch); otherwise the rest of the path is
folded into the subfolder named by it. -/
def convertStep (acc : Folder) : List String → Except String Folder
  | [] => .error "path is empty"
  | name :: rest =>
    if hasDot name then .ok acc
    else
      match ((lookupKV acc.folders name).getD emptyFolder).extend_iter rest with
      | .ok sub2 => .ok (.mk (upsertKV acc.folders name sub2) acc.files)
      | .error e => .error e

def convertFold (acc : Folder) (paths : List (List String)) : Except String Folder :=
  match paths with
  | [] => .ok acc
  | p :: rest =>
    match convertStep acc p with
    | .ok acc2 => convertFold acc2 rest
    | .error e => .error e

/-- convert_set from pending_log.rs: fold each path of one flat manifest
set into a Folder tree, starting from the empty tree. -/
def convert_set (paths : List String) : Except String Folder :=
  convertFold emptyFolder (paths.map splitPath)

/-- Whether the folder tree holds file `name` inside the nested directory
path `ds`. -/
def Folder.fileAtPath (f : Folder) (ds : List String) (name : String) : Bool :=
  match ds with
  | [] => decide (name ∈ f.files)
  | d :: rest =>
    match lookupKV f.folders d with
    | some sub => sub.fileAtPath rest name
    | none => false

/-- The subfolder of the tree reached by the directory path, when present. -/
def Folder.dirAtPath (f : Folder) (ds : List String) : Option Folder :=
  match ds with
  | [] => some f
  | d :: rest =>
    match lookupKV f.folders d with
    | some sub => sub.dirAtPath rest
    | none => none

/-- The location where the extend convention files a path: the directory
segments before the first dot-containing segment, and that segment as the
file name. -/
def firstDotSplit (segs : List String) : Option (List String × String) :=
  match segs with
  | [] => none
  | name :: rest =>
    if hasDot name then some ([], name)
    else (firstDotSplit rest).map (fun pr => (name :: pr.1, pr.2))

/-! ## Filesystem snapshots and tree diffing
(src/crates/uk-manager/src/deploy/folder.rs compile_moves/compile_deletes,
src/crates/uk-manager/src/deploy/file.rs should_move/should_delete)

`Fsys` is a filesystem subtree: files with modification times and named
subdirectories (directories also carry a modification time, since
`Path::exists` and `metadata().modified()` see directory entries too). -/

inductive Fsys where
  | node : List (String × Nat) → List (String × Nat × Fsys) → Fsys

def Fsys.files : Fsys → List (String × Nat)
  | .node fs _ => fs

def Fsys.dirs : Fsys → List (String × Nat × Fsys)
  | .node _ ds => ds

def emptyFs : Fsys := .node [] []

/-- Whether the path `name` exists directly in the tree, and the
modification time of whatever entry (file or directory) is there. -/
def Fsys.entryMtime (t : Fsys) (name : String) : Option Nat :=
  match lookupKV t.files name with
  | some mt => some mt
  | none => (lookupKV t.dirs name).map Prod.fst

def Fsys.lookupDir (t : Fsys) (name : String) : Option Fsys :=
  (lookupKV t.dirs name).map Prod.snd

/-- File::should_move for a source file with modification time `mt`: move
when the matching destination path does not exist or its modification time
differs. -/
def should_move (mt : Nat) (destEntry : Option Nat) : Bool :=
  match destEntry with
  | none => true
  | some mt2 => decide (mt ≠ mt2)

/-- File::should_delete for an existing destination file: delete when the
matching source path does not exist at all. -/
def should_delete (srcEntry : Option Nat) : Bool := srcEntry.isNone

mutual

/-- Folder::compile_moves: walk the source tree; keep a file when
should_move holds against the matching destination path, keep a directory
only when its recursive compilation is nonempty. -/
def compile_moves : Fsys → Fsys → Folder
  | Fsys.node fs ds, dst =>
    Folder.mk (compile_moves_dirs ds dst)
      ((fs.filter (fun f => should_move f.2 (dst.entryMtime f.1))).map Prod.fst)

def compile_moves_dirs : List (String × Nat × Fsys) → Fsys → List (String × Folder)
  | [], _ => []
  | (name, _, sub) :: rest, dst =>
    (if (compile_moves sub ((dst.lookupDir name).getD emptyFs)).has_some then
      [(name, compile_moves sub ((dst.lookupDir name).getD emptyFs))]
    else []) ++ compile_moves_dirs rest dst

end

mutual

/-- Folder::compile_deletes: walk the destination tree; keep a file when the
matching source path has no entry, keep a directory only when its recursive
compilation is nonempty. -/
def compile_deletes : Fsys → Fsys → Folder
  | Fsys.node fs ds, based =>
    Folder.mk (compile_deletes_dirs ds based)
      ((fs.filter (fun f => should_delete (based.entryMtime f.1))).map Prod.fst)

def compile_deletes_dirs : List (String × Nat × Fsys) → Fsys → List (String × Folder)
  | [], _ => []
  | (name, _, sub) :: rest, based =>
    (if (compile_deletes sub ((based.lookupDir name).getD emptyFs)).has_some then
      [(name, compile_deletes sub ((based.lookupDir name).getD emptyFs))]
    else []) ++ compile_deletes_dirs rest based

end

/-- The file (with its modification time) at a nested path of the tree. -/
def Fsys.fileAt (t : Fsys) : List String → String → Option Nat
  | [], nm => lookupKV t.files nm
  | d :: rest, nm =>
    match t.lookupDir d with
    | some sub => sub.fileAt rest nm
    | none => none

/-- The entry (file or directory) present at a nested path of the tree. -/
def Fsys.entryAt (t : Fsys) : List String → String → Option Nat
  | [], nm => t.entryMtime nm
  | d :: rest, nm =>
    match t.lookupDir d with
    | some sub => sub.entryAt rest nm
    | none => none

mutual

/-- Well-formedness of a snapshot, as directory listings guarantee: no two
entries at one level share a name. -/
def Fsys.wfb : Fsys → Bool
  | .node fs ds =>
    decide ((fs.map Prod.fst).Nodup) && decide ((ds.map Prod.fst).Nodup)
      && wfbDirs ds

def wfbDirs : List (String × Nat × Fsys) → Bool
  | [] => true
  | (_, _, sub) :: rest => Fsys.wfb sub && wfbDirs rest

end

/-- Concrete trees for the deletes counterexample: the destination holds
a/x.bin, the source holds the same file name under b instead. -/
def srcCE : Fsys := .node [] [("b", 0, .node [("x.bin", 5)] [])]

def dstCE : Fsys := .node [] [("a", 0, .node [("x.bin", 7)] [])]

/-- Concrete trees for the moves witness: the staging copy of x.bin has a
different modification time than the deployed copy. -/
def srcW : Fsys := .node [("x.bin", 5)] []

def dstW : Fsys := .node [("x.bin", 7)] []

/-! ## Recipe decoding (src/crates/uk-content/src/actor/params/recipe.rs)

Parameter-archive keys are 32-bit CRC hashes of their names (`roead::aamp::
Name`). A key is embedded as either a known literal spelling or a bare hash;
`PKey.str` mirrors `Name::to_string`, which prints the known spelling or the
numeric hash. The CRC is the standard reflected CRC-32 used by the format
(keys are ASCII, so bytes are the character codes). -/

def crc32Step (crc : Nat) : Nat :=
  if crc % 2 == 1 then Nat.xor (crc / 2) 0xEDB88320 else crc / 2

def crc32Byte (crc b : Nat) : Nat :=
  (crc32Step (crc32Step (crc32Step (crc32Step
    (crc32Step (crc32Step (crc32Step (crc32Step (Nat.xor crc (b % 256)))))))))) % (2 ^ 32)

def crc32 (cs : List Char) : Nat :=
  Nat.xor (cs.foldl (fun crc c => crc32Byte crc (c.toNat % 256)) 0xFFFFFFFF) 0xFFFFFFFF

def digitChar : Nat → Char
  | 0 => '0' | 1 => '1' | 2 => '2' | 3 => '3' | 4 => '4'
  | 5 => '5' | 6 => '6' | 7 => '7' | 8 => '8' | _ => '9'

/-- Decimal rendering of a natural number (empty for zero), with explicit
fuel so that it computes by structural recursion. -/
def natToDigitsAux : Nat → Nat → List Char
  | 0, _ => []
  | fuel + 1, n =>
    if n = 0 then [] else natToDigitsAux fuel (n / 10) ++ [digitChar (n % 10)]

def natToDigits (n : Nat) : List Char := natToDigitsAux n n

/-- Rust `format!` zero-padding `idx:0width$`: pad the decimal rendering
with leading zeros up to the width. -/
def padChars (i w : Nat) : List Char :=
  List.replicate (w - (natToDigits i).length) '0' ++ natToDigits i

def digitVal (c : Char) : Nat := c.toNat - 48

def digitsToNat (cs : List Char) : Nat :=
  cs.foldl (fun acc c => acc * 10 + digitVal c) 0

/-- parse_item_index from recipe.rs: strip the prefix, scan the trailing
run of ASCII digits, fail when there is none, else parse that run. -/
def parse_item_index (key pre : List Char) : Option Nat :=
  if key.take pre.length = pre then
    if (((key.drop pre.length).reverse.takeWhile Char.isDigit).reverse).isEmpty then none
    else some (digitsToNat (((key.drop pre.length).reverse.takeWhile Char.isDigit).reverse))
  else none

inductive RecipeKeyKind where
  | ItemName | ItemNum
deriving DecidableEq

structure RecipeKeyMatch where
  kind : RecipeKeyKind
  index : Nat
deriving DecidableEq

def itemNameKeyC (i w : Nat) : List Char := "ItemName".toList ++ padChars i w

def itemNumKeyC (i w : Nat) : List Char := "ItemNum".toList ++ padChars i w

/-- The insertion sequence of recipe_key_map: hash-to-(kind, index) for
every index up to 999 at padding width 2, then again at width 3. -/
def recipe_key_entries : List (Nat × RecipeKeyMatch) :=
  ([2, 3].map (fun w =>
    (List.range 1000).flatMap (fun idx =>
      [(crc32 (itemNameKeyC idx w), RecipeKeyMatch.mk RecipeKeyKind.ItemName idx),
       (crc32 (itemNumKeyC idx w), RecipeKeyMatch.mk RecipeKeyKind.ItemNum idx)]))).flatten

/-- identify_recipe_key: hash lookup in the (lazily built) map; a repeated
insertion of the same hash keeps the last one, as HashMap::insert does. -/
def identify_recipe_key (h : Nat) : Option RecipeKeyMatch :=
  ((recipe_key_entries.filter (fun e => e.1 == h)).getLast?).map Prod.snd

inductive PKey where
  | lit : String → PKey
  | hashed : Nat → PKey
deriving DecidableEq

def PKey.hash : PKey → Nat
  | .lit s => crc32 s.toList
  | .hashed h => h

def PKey.str : PKey → List Char
  | .lit s => s.toList
  | .hashed h => natToDigits h

inductive Param where
  | i32 : Int → Param
  | str64 : String → Param
deriving DecidableEq

def Param.as_int : Param → Except String Int
  | .i32 v => .ok v
  | _ => .error "wrong param type"

def Param.as_safe_string : Param → Except String String
  | .str64 s => .ok s
  | _ => .error "wrong param type"

abbrev ParamObject := List (PKey × Param)

/-- ParameterObject::get by name: compare the stored key hashes against the
hash of the requested name. -/
def pobjGet (o : ParamObject) (name : List Char) : Option Param :=
  (o.find? (fun e => e.1.hash == crc32 name)).map Prod.snd

/-- u8::try_from on the i32 count, as parse_recipe_count. -/
def parse_recipe_count (p : Param) : Except String Nat :=
  match p.as_int with
  | .ok raw =>
    if 0 ≤ raw ∧ raw ≤ 255 then .ok raw.toNat
    else .error "Recipe item count exceeds supported range"
  | .error e => .error e

/-- The BTreeMap of partially assembled entries: index to optional name and
optional count, kept sorted by index. -/
abbrev EntryMap := List (Nat × Option String × Option Nat)

def btSetName : EntryMap → Nat → String → EntryMap
  | [], i, nm => [(i, some nm, none)]
  | e :: rest, i, nm =>
    if i < e.1 then (i, some nm, none) :: e :: rest
    else if i = e.1 then (i, some nm, e.2.2) :: rest
    else e :: btSetName rest i nm

def btSetNum : EntryMap → Nat → Nat → EntryMap
  | [], i, c => [(i, none, some c)]
  | e :: rest, i, c =>
    if i < e.1 then (i, none, some c) :: e :: rest
    else if i = e.1 then (i, e.2.1, some c) :: rest
    else e :: btSetNum rest i c

/-- One key of the first decoding pass in parse_recipe_table_from_keys:
literal ItemName suffix digits, then literal ItemNum suffix digits, then the
hash lookup; any other key is ignored. -/
def parseKeysStep (m : EntryMap) (kv : PKey × Param) : Except String EntryMap :=
  match parse_item_index kv.1.str "ItemName".toList with
  | some i =>
    match kv.2.as_safe_string with
    | .ok nm => .ok (btSetName m i nm)
    | .error e => .error e
  | none =>
    match parse_item_index kv.1.str "ItemNum".toList with
    | some i =>
      match parse_recipe_count kv.2 with
      | .ok c => .ok (btSetNum m i c)
      | .error e => .error e
    | none =>
      match identify_recipe_key kv.1.hash with
      | some km =>
        match km.kind with
        | RecipeKeyKind.ItemName =>
          match kv.2.as_safe_string with
          | .ok nm => .ok (btSetName m km.index nm)
          | .error e => .error e
        | RecipeKeyKind.ItemNum =>
          match parse_recipe_count kv.2 with
          | .ok c => .ok (btSetNum m km.index c)
          | .error e => .error e
      | none => .ok m

def parseKeysFold : EntryMap → List (PKey × Param) → Except String EntryMap
  | m, [] => .ok m
  | m, kv :: rest =>
    match parseKeysStep m kv with
    | .ok m2 => parseKeysFold m2 rest
    | .error e => .error e

/-- Reading the assembled entries in index order into the recipe table; an
index with no name, or a name with no count, aborts with an error. -/
def entriesToTableAux : List (String × Nat) → EntryMap → Except String (List (String × Nat))
  | acc, [] => .ok acc
  | acc, (_, some nm, some c) :: rest => entriesToTableAux (upsertKV acc nm c) rest
  | _, (_, none, _) :: _ => .error "Recipe missing item name"
  | _, (_, some _, none) :: _ => .error "Recipe missing item count"

/-- parse_recipe_table_from_keys: the key-driven first pass; an empty result
means no recipe keys were recognized at all. -/
def parse_recipe_table_from_keys (table : ParamObject) :
    Except String (Option (List (String × Nat))) :=
  match parseKeysFold [] table with
  | .error e => .error e
  | .ok entries =>
    if entries.isEmpty then .ok none
    else
      match entriesToTableAux [] entries with
      | .ok tbl => .ok (some tbl)
      | .error e => .error e

/-- One width of the count-driven fallback: 1-based indices at the given
fixed zero-padding, looked up by hashed name. -/
def processFold (table : ParamObject) (w : Nat) :
    List Nat → List (String × Nat) → Except String (List (String × Nat))
  | [], acc => .ok acc
  | j :: rest, acc =>
    match pobjGet table (itemNameKeyC (j + 1) w) with
    | none => .error "Recipe missing item name"
    | some pn =>
      match pn.as_safe_string with
      | .error e => .error e
      | .ok nm =>
        match pobjGet table (itemNumKeyC (j + 1) w) with
        | none => .error "Recipe missing item count"
        | some pc =>
          match parse_recipe_count pc with
          | .error e => .error e
          | .ok c => processFold table w rest (upsertKV acc nm c)

def processAt (table : ParamObject) (w count : Nat) : Except String (List (String × Nat)) :=
  processFold table w (List.range count) []

/-- The process closure of Recipe::try_from: padding width 2 first, then on
failure the alternate width 3. -/
def process (table : ParamObject) (count : Nat) : Except String (List (String × Nat)) :=
  match processAt table 2 count with
  | .ok v => .ok v
  | .error _ => processAt table 3 count

/-- Decoding one recipe table: the key-driven pass wins when it recognizes
any entry; otherwise the declared ColumnNum count drives the fixed-width
ladder, retried with a count re-derived from the number of keys present. -/
def decodeRecipeTable (table : ParamObject) : Except String (List (String × Nat)) :=
  match parse_recipe_table_from_keys table with
  | .error e => .error e
  | .ok (some entries) => .ok entries
  | .ok none =>
    match pobjGet table "ColumnNum".toList with
    | none => .error "Recipe table missing column count"
    | some p =>
      match p.as_int with
      | .error e => .error e
      | .ok items_count =>
        match process table items_count.toNat with
        | .ok v => .ok v
        | .error _ => process table ((table.length - 1) / 2)

def readTableNames (header : ParamObject) : List Nat → Except String (List String)
  | [] => .ok []
  | j :: rest =>
    match pobjGet header ("Table".toList ++ padChars (j + 1) 2) with
    | none => .error "Recipe header missing table name"
    | some p =>
      match p.as_safe_string with
      | .error e => .error e
      | .ok nm =>
        match readTableNames header rest with
        | .ok names => .ok (nm :: names)
        | .error e => .error e

def decodeTables (pio : List (String × ParamObject)) :
    List String → Except String (List (String × List (String × Nat)))
  | [] => .ok []
  | nm :: rest =>
    match lookupKV pio nm with
    | none => .error "Recipe missing table"
    | some tblObj =>
      match decodeRecipeTable tblObj with
      | .error e => .error e
      | .ok entries =>
        match decodeTables pio rest with
        | .ok out => .ok ((nm, entries) :: out)
        | .error e => .error e

/-- Recipe::try_from over a whole parameter archive: header-driven table
names (1-based, width 2), then each table decoded; any table error aborts
the whole record. -/
def decodeRecipe (pio : List (String × ParamObject)) :
    Except String (List (String × List (String × Nat))) :=
  match lookupKV pio "Header" with
  | none => .error "Recipe missing header"
  | some header =>
    match pobjGet header "TableNum".toList with
    | none => .error "Recipe header missing table count"
    | some p =>
      match p.as_int with
      | .error e => .error e
      | .ok tn =>
        match readTableNames header (List.range tn.toNat) with
        | .error e => .error e
        | .ok names => decodeTables pio names

/-- A recipe table whose keys are all literal: a ColumnNum header followed
by ItemName and ItemNum keys with 0-based suffix indices at one fixed
padding width. -/
def mkLitTable (w : Nat) (items : List (String × Nat)) : ParamObject :=
  (PKey.lit "ColumnNum", Param.i32 items.length) ::
    (items.enum.flatMap (fun pr =>
      [(PKey.lit (String.mk (itemNameKeyC pr.1 w)), Param.str64 pr.2.1),
       (PKey.lit (String.mk (itemNumKeyC pr.1 w)), Param.i32 pr.2.2)]))

/-- A recipe table holding only a declared count of 7 and no recipe keys at
all: the key-driven pass recognizes nothing and the declared count cannot be
satisfied at either width, forcing the re-derived retry. -/
def ladderTbl : ParamObject := [(PKey.lit "ColumnNum", Param.i32 7)]

/-- A recipe table with an item name at index 0 but no matching count. -/
def abortTbl : ParamObject :=
  [(PKey.lit (String.mk (itemNameKeyC 0 2)), Param.str64 "Apple")]

/-- A recipe table with an item count at index 0 but no matching name. -/
def abortTbl2 : ParamObject :=
  [(PKey.lit (String.mk (itemNumKeyC 0 2)), Param.i32 3)]

def rstbT0 : RstbTable := [("a", 7), ("b", 1)]

def rstbU0 : List (String × Option Nat) := [("a", some 5), ("b", none)]

/-- The folder produced by converting the singleton old-schema set holding
System/Resource/x.srsizetable. -/
def convertedWitnessFolder : Folder :=
  .mk [("System", .mk [("Resource", .mk [] ["x.srsizetable"])] [])] []

/-! ## Support lemmas about last-wins association lists -/

theorem find?_append_some {α : Type} {p : α → Bool} {l1 l2 : List α} {a : α}
    (h : l1.find? p = some a) : (l1 ++ l2).find? p = some a := by
  induction l1 with
  | nil => simp at h
  | cons x xs ih =>
    by_cases hp : p x = true
    · rw [List.find?_cons_of_pos _ hp] at h
      rw [List.cons_append, List.find?_cons_of_pos _ hp]
      exact h
    · rw [List.find?_cons_of_neg _ hp] at h
      rw [List.cons_append, List.find?_cons_of_neg _ hp]
      exact ih h

theorem lastVal_isSome {V : Type} {l : List (String × V)} {k : String}
    (h : k ∈ keysOf l) : (lastVal l k).isSome := by
  unfold keysOf at h
  rw [List.mem_map] at h
  obtain ⟨p, hp, hpk⟩ := h
  unfold lastVal
  cases hf : l.reverse.find? (fun q => decide (q.1 = k)) with
  | some q => simp
  | none =>
    rw [List.find?_eq_none] at hf
    exact absurd (by simpa using hpk) (hf p (List.mem_reverse.mpr hp))

theorem mem_of_lastVal {V : Type} {l : List (String × V)} {k : String} {v : V}
    (h : lastVal l k = some v) : (k, v) ∈ l := by
  unfold lastVal at h
  cases hf : l.reverse.find? (fun p => decide (p.1 = k)) with
  | none => rw [hf] at h; simp at h
  | some p =>
    rw [hf] at h
    have hmem := List.mem_reverse.mp (List.mem_of_find?_eq_some hf)
    have hpred := List.find?_some hf
    simp only [decide_eq_true_eq] at hpred
    simp at h
    have hpkv : p = (k, v) := by
      obtain ⟨p1, p2⟩ := p
      simp_all
    rwa [hpkv] at hmem

theorem lastVal_of_mem_icollect {V : Type} {l : List (String × V)} {k : String} {v : V}
    (h : (k, v) ∈ icollect l) : lastVal l k = some v := by
  unfold icollect at h
  rw [List.mem_filterMap] at h
  obtain ⟨k0, hk0, hmap⟩ := h
  cases hlv : lastVal l k0 with
  | none => rw [hlv] at hmap; simp at hmap
  | some v0 =>
    rw [hlv] at hmap
    simp only [Option.map, Option.some_inj, Prod.mk.injEq] at hmap
    obtain ⟨hk, hv⟩ := hmap
    rw [← hk, hlv, hv]

theorem mem_keys_icollect {V : Type} {l : List (String × V)} {k : String}
    (h : k ∈ keysOf l) : k ∈ keysOf (icollect l) := by
  have hsome := lastVal_isSome h
  obtain ⟨v, hv⟩ := Option.isSome_iff_exists.mp hsome
  have hdedup : k ∈ (l.map Prod.fst).dedup := List.mem_dedup.mpr h
  unfold keysOf icollect
  rw [List.mem_map]
  refine ⟨(k, v), ?_, rfl⟩
  rw [List.mem_filterMap]
  exact ⟨k, hdedup, by rw [hv]; rfl⟩

theorem lastVal_append_of_isSome {V : Type} {a d : List (String × V)} {k : String}
    (h : (lastVal d k).isSome) : lastVal (a ++ d) k = lastVal d k := by
  obtain ⟨v, hv⟩ := Option.isSome_iff_exists.mp h
  unfold lastVal at hv ⊢
  rw [List.reverse_append]
  cases hf : d.reverse.find? (fun p => decide (p.1 = k)) with
  | none => rw [hf] at hv; simp at hv
  | some p => simp only [find?_append_some hf, hf]

theorem containsKey_eq_false {V : Type} {l : List (String × V)} {k : String}
    (h : k ∉ keysOf l) : containsKey l k = false := by
  unfold containsKey lookupKV
  cases hf : l.find? (fun p => decide (p.1 = k)) with
  | none => simp
  | some p =>
    have hmem := List.mem_of_find?_eq_some hf
    have hpred := List.find?_some hf
    simp only [decide_eq_true_eq] at hpred
    exact absurd (hpred ▸ List.mem_map_of_mem Prod.fst hmem) h

/-- Every entry of the per-table diff whose key is absent from the mod table
carries the delete flag. -/
theorem diff_table_key_delete {a b : ShopTable} {k : String} {w : ShopItem}
    (hmem : (k, w) ∈
      (b.filterMap (fun q =>
        match lookupKV a q.1 with
        | some sd => if sd = q.2 then none else some q
        | none => some q)
      ++ a.filterMap (fun q =>
        if containsKey b q.1 then none
        else some (q.1, q.2.with_delete))))
    (hkb : k ∉ keysOf b) : w.delete = true := by
  rw [List.mem_append] at hmem
  rcases hmem with hmem | hmem
  · rw [List.mem_filterMap] at hmem
    obtain ⟨q, hq, heq⟩ := hmem
    have hqk : q.1 = k := by
      cases hkv : lookupKV a q.1 with
      | none => rw [hkv] at heq; simp_all
      | some sd =>
        rw [hkv] at heq
        by_cases hsd : sd = q.2
        · simp [hsd] at heq
        · simp only [if_neg hsd, Option.some_inj] at heq
          rw [heq]
    exact absurd (hqk ▸ List.mem_map_of_mem Prod.fst hq) hkb
  · rw [List.mem_filterMap] at hmem
    obtain ⟨q, hq, heq⟩ := hmem
    cases hcb : containsKey b q.1 with
    | true => rw [hcb] at heq; simp at heq
    | false =>
      rw [hcb] at heq
      simp only [Bool.false_eq_true, if_false, Option.some_inj, Prod.mk.injEq] at heq
      rw [← heq.2]
      rfl

/-- Tombstone law at the shop-table level: a key present in the base table
and absent from the mod table is absent from the merge of the base with the
diff. -/
theorem merge_table_tombstone (a b : ShopTable) (k : String)
    (hka : k ∈ keysOf a) (hkb : k ∉ keysOf b) :
    k ∉ keysOf (merge_table a (diff_table a b)) := by
  intro hmem
  unfold merge_table keysOf at hmem
  rw [List.mem_map] at hmem
  obtain ⟨p, hpf, hpk⟩ := hmem
  rw [List.mem_filter] at hpf
  obtain ⟨hpi, hdel⟩ := hpf
  rw [← hpk] at hka hkb
  have hppair : (p.1, p.2) ∈ icollect (a ++ diff_table a b) := hpi
  have hlv := lastVal_of_mem_icollect hppair
  -- the tombstoned entry for the key is in the raw diff list
  obtain ⟨pa, hpa, hpak⟩ : ∃ pa ∈ a, pa.1 = p.1 := by
    unfold keysOf at hka; rw [List.mem_map] at hka
    obtain ⟨pa, hpa, hpak⟩ := hka; exact ⟨pa, hpa, hpak⟩
  have hcb : containsKey b p.1 = false := containsKey_eq_false hkb
  have hmem2 : (p.1, pa.2.with_delete) ∈
      (b.filterMap (fun q =>
        match lookupKV a q.1 with
        | some sd => if sd = q.2 then none else some q
        | none => some q)
      ++ a.filterMap (fun q =>
        if containsKey b q.1 then none
        else some (q.1, q.2.with_delete))) := by
    rw [List.mem_append]
    right
    rw [List.mem_filterMap]
    exact ⟨pa, hpa, by rw [hpak, hcb]; simp⟩
  have hkd : p.1 ∈ keysOf (diff_table a b) :=
    mem_keys_icollect (List.mem_map.mpr ⟨(p.1, pa.2.with_delete), hmem2, rfl⟩)
  have hds := lastVal_isSome hkd
  rw [lastVal_append_of_isSome hds] at hlv
  have hmemd := mem_of_lastVal hlv
  have hlv2 := lastVal_of_mem_icollect hmemd
  have hmemd0 := mem_of_lastVal hlv2
  have hvdel : p.2.delete = true := diff_table_key_delete hmemd0 hkb
  rw [hvdel] at hdel
  simp at hdel

/-! ## Claim theorems for the patch algebra -/

/-- C1: the claimed round-trip law merge(a, diff(a, b)) == b FAILS on the
code. `ShopData::merge` drops every base table for which the diff has no
entry, so unchanged tables vanish from the merge result; and
`ScaleTranslate::merge` computes its `translate` field from `self.scale`.
At the concrete pair shopA/shopB (table T2 unchanged), the merge result is
only the changed table T1, which is not equal to shopB; at the concrete pair
stA/stB the merged translate component is wrong. -/
theorem C1_roundtrip_fails_on_code :
    shopDataEq (ShopData.merge shopA (ShopData.diff shopA shopB)) shopB = false
    ∧ ShopData.merge shopA (ShopData.diff shopA shopB)
      = [("T1", some [("A", shopItem 2)])]
    ∧ ScaleTranslate.merge stA (ScaleTranslate.diff stA stB) ≠ stB := by
  decide

/-- C2: the claimed idempotence law (diff(a, a) defined and
merge(a, diff(a, a)) == a) FAILS on the code. `LocationMarker::diff` builds
every scalar field with `.ne(..).then(..).unwrap()`, which panics whenever
the field is unchanged, so diff(a, a) always panics (modelled as `none`);
and `ShopData` shows merge(a, diff(a, a)) = empty map instead of a. -/
theorem C2_idempotence_fails_on_code :
    LocationMarker.diff marker0 marker0 = none
    ∧ ShopData.diff shopA shopA = []
    ∧ ShopData.merge shopA (ShopData.diff shopA shopA) = []
    ∧ shopDataEq (ShopData.merge shopA (ShopData.diff shopA shopA)) shopA = false := by
  decide

/-- C3: the tombstone law holds at the shop-table level — a key present in
the base table and absent from the mod table is absent from
merge(base, diff(base, mod)) — and the spec's concrete scenario 1 holds:
diffing base table A:1, B:2 against mod table B:3, C:4 yields B changed,
C added and A tombstoned, and merging the base with that diff yields exactly
the mod table. -/
theorem C3_tombstone_law_and_scenario :
    (∀ (a b : ShopTable) (k : String),
      k ∈ keysOf a → k ∉ keysOf b → k ∉ keysOf (merge_table a (diff_table a b)))
    ∧ diff_table tblBase tblMod
      = [("B", shopItem 3), ("C", shopItem 4), ("A", (shopItem 1).with_delete)]
    ∧ merge_table tblBase (diff_table tblBase tblMod)
      = [("B", shopItem 3), ("C", shopItem 4)]
    ∧ imapEq (merge_table tblBase (diff_table tblBase tblMod)) tblMod = true :=
  ⟨merge_table_tombstone, by decide, by decide, by decide⟩

/-- Witness for C3: the tombstone law evaluated at the concrete scenario,
key A. -/
theorem C3_tombstone_law_and_scenario_witness :
    "A" ∈ keysOf tblBase ∧ "A" ∉ keysOf tblMod
    ∧ "A" ∉ keysOf (merge_table tblBase (diff_table tblBase tblMod)) :=
  ⟨by decide, by decide,
    C3_tombstone_law_and_scenario.1 tblBase tblMod "A" (by decide) (by decide)⟩

/-! ## Resource-size-table lemmas -/

theorem lookupKV_cons_self {V : Type} {q : String × V} {rest : List (String × V)}
    {k : String} (h : q.1 = k) : lookupKV (q :: rest) k = some q.2 := by
  unfold lookupKV
  rw [List.find?_cons_of_pos _ (by simpa using h)]
  rfl

theorem lookupKV_cons_ne {V : Type} {q : String × V} {rest : List (String × V)}
    {k : String} (h : ¬ q.1 = k) : lookupKV (q :: rest) k = lookupKV rest k := by
  unfold lookupKV
  rw [List.find?_cons_of_neg _ (by simpa using h)]

theorem rstbGet_set_self (t : RstbTable) (p : String) (n : Nat) :
    rstbGet (rstbSet t p n) p = some n := by
  induction t with
  | nil =>
    unfold rstbSet rstbGet
    rw [lookupKV_cons_self rfl]
  | cons q rest ih =>
    by_cases hq : q.1 = p
    · unfold rstbSet
      rw [if_pos hq]
      unfold rstbGet
      rw [lookupKV_cons_self rfl]
    · unfold rstbSet
      rw [if_neg hq]
      unfold rstbGet at ih ⊢
      rw [lookupKV_cons_ne hq]
      exact ih

theorem rstbGet_set_other (t : RstbTable) (p : String) (n : Nat) (q0 : String)
    (h : q0 ≠ p) : rstbGet (rstbSet t p n) q0 = rstbGet t q0 := by
  induction t with
  | nil =>
    unfold rstbSet rstbGet
    rw [lookupKV_cons_ne (fun hc => h hc.symm)]
  | cons q rest ih =>
    by_cases hq : q.1 = p
    · unfold rstbSet
      rw [if_pos hq]
      unfold rstbGet
      by_cases hq0 : q.1 = q0
      · exact absurd (hq ▸ hq0) (fun hc => h hc.symm)
      · rw [lookupKV_cons_ne (fun hc => hq0 (hq.symm ▸ hc)), lookupKV_cons_ne hq0]
    · unfold rstbSet
      rw [if_neg hq]
      unfold rstbGet at ih ⊢
      by_cases hq0 : q.1 = q0
      · rw [lookupKV_cons_self hq0, lookupKV_cons_self hq0]
      · rw [lookupKV_cons_ne hq0, lookupKV_cons_ne hq0]
        exact ih

theorem rstbGet_remove_self (t : RstbTable) (p : String) :
    rstbGet (rstbRemove t p) p = none := by
  unfold rstbGet lookupKV rstbRemove
  rw [List.find?_eq_none.mpr]
  · rfl
  · intro x hx
    rw [List.mem_filter] at hx
    have hx2 : x.1 ≠ p := by simpa using hx.2
    simpa using hx2

theorem rstbRemove_cons (q : String × Nat) (rest : RstbTable) (p : String) :
    rstbRemove (q :: rest) p
      = if q.1 = p then rstbRemove rest p else q :: rstbRemove rest p := by
  unfold rstbRemove
  by_cases hq : q.1 = p
  · rw [if_pos hq]
    exact List.filter_cons_of_neg (by simpa using hq)
  · rw [if_neg hq]
    exact List.filter_cons_of_pos (by simpa using hq)

theorem rstbGet_remove_other (t : RstbTable) (p : String) (q0 : String)
    (h : q0 ≠ p) : rstbGet (rstbRemove t p) q0 = rstbGet t q0 := by
  induction t with
  | nil => rfl
  | cons q rest ih =>
    rw [rstbRemove_cons]
    by_cases hq : q.1 = p
    · rw [if_pos hq]
      unfold rstbGet at ih ⊢
      rw [lookupKV_cons_ne (fun hc => h (hq ▸ hc).symm)]
      exact ih
    · rw [if_neg hq]
      unfold rstbGet at ih ⊢
      by_cases hq0 : q.1 = q0
      · rw [lookupKV_cons_self hq0, lookupKV_cons_self hq0]
      · rw [lookupKV_cons_ne hq0, lookupKV_cons_ne hq0]
        exact ih

theorem applyRstbUpdate_none (t : RstbTable) (p : String) :
    applyRstbUpdate t (p, none) = rstbRemove t p := rfl

theorem applyRstbUpdate_some_lt {t : RstbTable} {p : String} {size s : Nat}
    (hg : rstbGet t p = some s) (hs : s < size) :
    applyRstbUpdate t (p, some size) = rstbSet t p size := by
  unfold applyRstbUpdate
  simp only [hg]
  rw [if_pos hs]

theorem applyRstbUpdate_some_ge {t : RstbTable} {p : String} {size s : Nat}
    (hg : rstbGet t p = some s) (hs : ¬ s < size) :
    applyRstbUpdate t (p, some size) = t := by
  unfold applyRstbUpdate
  simp only [hg]
  rw [if_neg hs]

theorem applyRstbUpdate_some_missing {t : RstbTable} {p : String} {size : Nat}
    (hg : rstbGet t p = none) :
    applyRstbUpdate t (p, some size) = rstbSet t p size := by
  unfold applyRstbUpdate
  simp only [hg]

theorem applyRstbUpdate_other (t : RstbTable) (u : String × Option Nat) (q0 : String)
    (h : u.1 ≠ q0) : rstbGet (applyRstbUpdate t u) q0 = rstbGet t q0 := by
  obtain ⟨u1, u2⟩ := u
  cases u2 with
  | none => rw [applyRstbUpdate_none, rstbGet_remove_other t u1 q0 (fun hc => h hc.symm)]
  | some size =>
    cases hg : rstbGet t u1 with
    | some s =>
      by_cases hs : s < size
      · rw [applyRstbUpdate_some_lt hg hs,
          rstbGet_set_other t u1 size q0 (fun hc => h hc.symm)]
      · rw [applyRstbUpdate_some_ge hg hs]
    | none =>
      rw [applyRstbUpdate_some_missing hg,
        rstbGet_set_other t u1 size q0 (fun hc => h hc.symm)]

theorem apply_rstb_preserve (updates : List (String × Option Nat)) (t : RstbTable)
    (q0 : String) (h : q0 ∉ keysOf updates) :
    rstbGet (apply_rstb updates t) q0 = rstbGet t q0 := by
  induction updates generalizing t with
  | nil => rfl
  | cons u us ih =>
    unfold keysOf at h
    simp only [List.map_cons, List.mem_cons] at h
    push_neg at h
    have step : apply_rstb (u :: us) t = apply_rstb us (applyRstbUpdate t u) := rfl
    rw [step, ih (applyRstbUpdate t u) (by unfold keysOf; simpa using h.2),
      applyRstbUpdate_other t u q0 (fun hc => h.1 hc.symm)]

/-! ## Claim theorems for RSTB, orphans, variants, file copy -/

/-- C4: apply_rstb never lowers an existing recorded size — a non-removal
update (p, n) over a prior size s yields max(s, n), a missing entry is set
to n — and a removal update leaves p absent, for any update set with
distinct paths. -/
theorem C4_rstb_monotonic_law :
    ∀ (updates : List (String × Option Nat)) (t : RstbTable) (p : String),
      (keysOf updates).Nodup →
      ((p, (none : Option Nat)) ∈ updates → rstbGet (apply_rstb updates t) p = none)
      ∧ (∀ n : Nat, (p, some n) ∈ updates →
          rstbGet (apply_rstb updates t) p
            = some (match rstbGet t p with
              | some s => max s n
              | none => n)) := by
  intro updates
  induction updates with
  | nil => exact fun t p _ => ⟨by simp, by simp⟩
  | cons u us ih =>
    intro t p hnd
    unfold keysOf at hnd
    simp only [List.map_cons, List.nodup_cons] at hnd
    have hndus : (keysOf us).Nodup := hnd.2
    have hu1nin : u.1 ∉ List.map Prod.fst us := hnd.1
    have step : apply_rstb (u :: us) t = apply_rstb us (applyRstbUpdate t u) := rfl
    constructor
    · intro hmem
      rcases List.mem_cons.mp hmem with heq | hmem2
      · cases heq.symm
        have hp : p ∉ keysOf us := by unfold keysOf; simpa using hu1nin
        rw [step, apply_rstb_preserve us _ p hp, applyRstbUpdate_none,
          rstbGet_remove_self t p]
      · exact (ih (applyRstbUpdate t u) p hndus).1 hmem2
    · intro n hmem
      rcases List.mem_cons.mp hmem with heq | hmem2
      · cases heq.symm
        have hp : p ∉ keysOf us := by unfold keysOf; simpa using hu1nin
        rw [step, apply_rstb_preserve us _ p hp]
        cases hg : rstbGet t p with
        | some s =>
          by_cases hs : s < n
          · rw [applyRstbUpdate_some_lt hg hs, rstbGet_set_self]
            show some n = some (max s n)
            have hmax : max s n = n := by omega
            rw [hmax]
          · rw [applyRstbUpdate_some_ge hg hs, hg]
            show some s = some (max s n)
            have hmax : max s n = s := by omega
            rw [hmax]
        | none => rw [applyRstbUpdate_some_missing hg, rstbGet_set_self]
      · have hne : u.1 ≠ p := fun hc =>
          hu1nin (hc ▸ List.mem_map.mpr ⟨(p, some n), hmem2, rfl⟩)
        have hrec := (ih (applyRstbUpdate t u) p hndus).2 n hmem2
        rw [step, hrec, applyRstbUpdate_other t u p hne]

/-- Witness for C4: applying updates lowering path a to 5 (kept at max 7 5
= 7) and removing path b. -/
theorem C4_rstb_monotonic_law_witness :
    (keysOf rstbU0).Nodup
    ∧ rstbGet (apply_rstb rstbU0 rstbT0) "a" = some 7
    ∧ rstbGet (apply_rstb rstbU0 rstbT0) "b" = none := by
  refine ⟨by decide, ?_, ?_⟩
  · have h := (C4_rstb_monotonic_law rstbU0 rstbT0 "a" (by decide)).2 5 (by decide)
    rw [h]
    decide
  · exact (C4_rstb_monotonic_law rstbU0 rstbT0 "b" (by decide)).1 (by decide)

/-- C5 (amended): handle_orphans queues for deletion exactly the pass
manifest minus the union manifest, per tree; the retained manifest is
exactly the intersection; the copies scheduled by the applying pass are
exactly this retained intersection; and a path only in the union manifest is
never queued as a delete. -/
theorem C5_orphan_handling :
    ∀ (total manifest : Manifest) (p : String),
      (p ∈ (orphansOf total manifest).content_files
        ↔ p ∈ manifest.content_files ∧ p ∉ total.content_files)
      ∧ (p ∈ (orphansOf total manifest).aoc_files
        ↔ p ∈ manifest.aoc_files ∧ p ∉ total.aoc_files)
      ∧ (p ∈ (retainedOf total manifest).content_files
        ↔ p ∈ manifest.content_files ∧ p ∈ total.content_files)
      ∧ (p ∈ (retainedOf total manifest).aoc_files
        ↔ p ∈ manifest.aoc_files ∧ p ∈ total.aoc_files)
      ∧ scheduledCopies total manifest = retainedOf total manifest
      ∧ (p ∈ total.content_files → p ∉ manifest.content_files →
          p ∉ (orphansOf total manifest).content_files) := by
  intro total manifest p
  refine ⟨?_, ?_, ?_, ?_, rfl, ?_⟩ <;>
    simp only [orphansOf, retainedOf, List.mem_filter, decide_eq_true_eq] <;>
    tauto

/-- Witness for C5: the orphan characterizations evaluated at the concrete
manifests, path b. -/
theorem C5_orphan_handling_witness :
    "b" ∉ (orphansOf totalCE manifestCE).content_files
    ∧ "b" ∈ (retainedOf totalCE manifestCE).content_files
    ∧ "a" ∉ (orphansOf totalCE manifestCE).content_files :=
  ⟨fun h => ((C5_orphan_handling totalCE manifestCE "b").1.mp h).2 (by decide),
    (C5_orphan_handling totalCE manifestCE "b").2.2.1.mpr ⟨by decide, by decide⟩,
    (C5_orphan_handling totalCE manifestCE "a").2.2.2.2.2 (by decide) (by decide)⟩

/-- Counterexample for C5 as stated: path a is only in the union manifest
(present in totalCE, absent from the pass manifest manifestCE), yet it is
not among the copies scheduled by the pass, contradicting the claim that
paths only in the union manifest are scheduled as copies. -/
theorem C5_union_only_not_copied :
    "a" ∈ totalCE.content_files ∧ "a" ∉ manifestCE.content_files
    ∧ "a" ∉ (scheduledCopies totalCE manifestCE).content_files := by
  decide

/-- C7: diffing or merging a Special variant against a Normal variant of a
status-effect field fails loudly (a panic, modelled as none) instead of
coercing or returning a value. -/
theorem C7_kind_mismatch_fails_loudly :
    ∀ a b : StatusEffectValues, kindMismatch a b = true →
      StatusEffectValues.diff a b = none ∧ StatusEffectValues.merge a b = none := by
  intro a b h
  cases a <;> cases b <;>
    simp_all [kindMismatch, StatusEffectValues.diff, StatusEffectValues.merge]

/-- Witness for C7: Special against an empty Normal list. -/
theorem C7_kind_mismatch_fails_loudly_witness :
    kindMismatch StatusEffectValues.Special (StatusEffectValues.Normal ⟨[]⟩) = true
    ∧ StatusEffectValues.diff StatusEffectValues.Special
        (StatusEffectValues.Normal ⟨[]⟩) = none
    ∧ StatusEffectValues.merge StatusEffectValues.Special
        (StatusEffectValues.Normal ⟨[]⟩) = none :=
  ⟨by decide,
    (C7_kind_mismatch_fails_loudly StatusEffectValues.Special
      (StatusEffectValues.Normal ⟨[]⟩) (by decide)).1,
    (C7_kind_mismatch_fails_loudly StatusEffectValues.Special
      (StatusEffectValues.Normal ⟨[]⟩) (by decide)).2⟩

/-- C10: copying a pending file whose source no longer exists is not an
error: the call logs a warning, removes any existing destination file, and
reports success. -/
theorem C10_missing_source_tolerated :
    ∀ dst : FileState, fileCopy none dst = Except.ok (none, true) := by
  intro dst
  cases dst <;> rfl

/-! ## Folder extension lemmas -/

theorem folders_mk (fs : List (String × Folder)) (fl : List String) :
    (Folder.mk fs fl).folders = fs := rfl

theorem files_mk (fs : List (String × Folder)) (fl : List String) :
    (Folder.mk fs fl).files = fl := rfl

theorem lookupKV_upsert_self {V : Type} (l : List (String × V)) (k : String) (v : V) :
    lookupKV (upsertKV l k v) k = some v := by
  induction l with
  | nil =>
    unfold upsertKV
    rw [lookupKV_cons_self rfl]
  | cons q rest ih =>
    unfold upsertKV
    by_cases hq : q.1 = k
    · rw [if_pos hq, lookupKV_cons_self rfl]
    · rw [if_neg hq, lookupKV_cons_ne hq]
      exact ih

theorem lookupKV_upsert_other {V : Type} (l : List (String × V)) (k : String) (v : V)
    (k0 : String) (h : k0 ≠ k) : lookupKV (upsertKV l k v) k0 = lookupKV l k0 := by
  induction l with
  | nil =>
    unfold upsertKV
    rw [lookupKV_cons_ne (fun hc => h hc.symm)]
  | cons q rest ih =>
    unfold upsertKV
    by_cases hq : q.1 = k
    · rw [if_pos hq]
      rw [lookupKV_cons_ne (fun hc => h hc.symm), lookupKV_cons_ne (hq ▸ (fun hc => h hc.symm))]
    · rw [if_neg hq]
      by_cases hq0 : q.1 = k0
      · rw [lookupKV_cons_self hq0, lookupKV_cons_self hq0]
      · rw [lookupKV_cons_ne hq0, lookupKV_cons_ne hq0]
        exact ih

theorem mem_insertFileName_self (files : List String) (name : String) :
    name ∈ insertFileName files name := by
  unfold insertFileName
  by_cases h : name ∈ files
  · rw [if_pos h]; exact h
  · rw [if_neg h]; simp

theorem mem_insertFileName_of_mem (files : List String) (name nm : String)
    (h : nm ∈ files) : nm ∈ insertFileName files name := by
  unfold insertFileName
  by_cases hm : name ∈ files
  · rw [if_pos hm]; exact h
  · rw [if_neg hm]; simp [h]

/-- Extending a folder with a path files its entry at the first
dot-containing segment. -/
theorem extend_iter_adds :
    ∀ (segs : List String) (f g : Folder) (ds : List String) (nm : String),
      f.extend_iter segs = .ok g → firstDotSplit segs = some (ds, nm) →
      g.fileAtPath ds nm = true := by
  intro segs
  induction segs with
  | nil =>
    intro f g ds nm hok _
    exact Except.noConfusion hok
  | cons name rest ih =>
    intro f g ds nm hok hsplit
    unfold Folder.extend_iter at hok
    unfold firstDotSplit at hsplit
    by_cases hdot : hasDot name = true
    · rw [if_pos hdot] at hok hsplit
      cases hok
      simp only [Option.some_inj, Prod.mk.injEq] at hsplit
      obtain ⟨h1, h2⟩ := hsplit
      subst h1
      subst h2
      unfold Folder.fileAtPath
      rw [files_mk]
      simpa using mem_insertFileName_self f.files name
    · rw [if_neg hdot] at hok hsplit
      cases hrec : ((lookupKV f.folders name).getD emptyFolder).extend_iter rest with
      | error e => rw [hrec] at hok; exact Except.noConfusion hok
      | ok sub2 =>
        rw [hrec] at hok
        cases hok
        cases hfd : firstDotSplit rest with
        | none => rw [hfd] at hsplit; simp at hsplit
        | some pr =>
          rw [hfd] at hsplit
          simp only [Option.map, Option.some_inj, Prod.mk.injEq] at hsplit
          obtain ⟨h1, h2⟩ := hsplit
          subst h1
          subst h2
          unfold Folder.fileAtPath
          rw [folders_mk, lookupKV_upsert_self]
          exact ih _ sub2 pr.1 pr.2 hrec (by rw [hfd])

/-- Extending a folder with a path keeps every file entry already present. -/
theorem extend_iter_preserves :
    ∀ (segs : List String) (f g : Folder) (ds : List String) (nm : String),
      f.extend_iter segs = .ok g → f.fileAtPath ds nm = true →
      g.fileAtPath ds nm = true := by
  intro segs
  induction segs with
  | nil =>
    intro f g ds nm hok _
    exact Except.noConfusion hok
  | cons name rest ih =>
    intro f g ds nm hok hfp
    unfold Folder.extend_iter at hok
    by_cases hdot : hasDot name = true
    · rw [if_pos hdot] at hok
      cases hok
      cases ds with
      | nil =>
        unfold Folder.fileAtPath at hfp ⊢
        rw [files_mk]
        simp only [decide_eq_true_eq] at hfp ⊢
        exact mem_insertFileName_of_mem f.files name nm hfp
      | cons d rest2 =>
        unfold Folder.fileAtPath at hfp ⊢
        rw [folders_mk]
        exact hfp
    · rw [if_neg hdot] at hok
      cases hrec : ((lookupKV f.folders name).getD emptyFolder).extend_iter rest with
      | error e => rw [hrec] at hok; exact Except.noConfusion hok
      | ok sub2 =>
        rw [hrec] at hok
        cases hok
        cases ds with
        | nil =>
          unfold Folder.fileAtPath at hfp ⊢
          rw [files_mk]
          exact hfp
        | cons d rest2 =>
          unfold Folder.fileAtPath at hfp ⊢
          rw [folders_mk]
          by_cases hd : d = name
          · subst hd
            cases hlk : lookupKV f.folders d with
            | none => rw [hlk] at hfp; exact absurd hfp (by simp)
            | some sub0 =>
              rw [hlk] at hfp
              rw [lookupKV_upsert_self]
              have hsub : sub0.extend_iter rest = .ok sub2 := by
                rw [← hrec, hlk]
                rfl
              exact ih sub0 sub2 rest2 nm hsub hfp
          · rw [lookupKV_upsert_other _ _ _ _ hd]
            exact hfp

/-- The convert_set step keeps every file entry already present. -/
theorem convertStep_preserves {acc acc2 : Folder} {segs ds : List String} {nm : String}
    (hok : convertStep acc segs = .ok acc2) (hfp : acc.fileAtPath ds nm = true) :
    acc2.fileAtPath ds nm = true := by
  cases segs with
  | nil => exact Except.noConfusion hok
  | cons name rest =>
    simp only [convertStep] at hok
    by_cases hdot : hasDot name = true
    · rw [if_pos hdot] at hok
      cases hok
      exact hfp
    · rw [if_neg hdot] at hok
      cases hrec : ((lookupKV acc.folders name).getD emptyFolder).extend_iter rest with
      | error e => rw [hrec] at hok; exact Except.noConfusion hok
      | ok sub2 =>
        rw [hrec] at hok
        cases hok
        cases ds with
        | nil =>
          unfold Folder.fileAtPath at hfp ⊢
          rw [files_mk]
          exact hfp
        | cons d rest2 =>
          unfold Folder.fileAtPath at hfp ⊢
          rw [folders_mk]
          by_cases hd : d = name
          · subst hd
            cases hlk : lookupKV acc.folders d with
            | none => rw [hlk] at hfp; exact absurd hfp (by simp)
            | some sub0 =>
              rw [hlk] at hfp
              rw [lookupKV_upsert_self]
              have hsub : sub0.extend_iter rest = .ok sub2 := by
                rw [← hrec, hlk]
                rfl
              exact extend_iter_preserves rest sub0 sub2 rest2 nm hsub hfp
          · rw [lookupKV_upsert_other _ _ _ _ hd]
            exact hfp

/-- The convert_set step files a path whose first segment is a directory
name at its first dot-containing segment. -/
theorem convertStep_adds {acc acc2 : Folder} {segs : List String} {d0 : String}
    {ds2 : List String} {nm : String}
    (hok : convertStep acc segs = .ok acc2)
    (hsplit : firstDotSplit segs = some (d0 :: ds2, nm)) :
    acc2.fileAtPath (d0 :: ds2) nm = true := by
  cases segs with
  | nil => exact Except.noConfusion hok
  | cons name rest =>
    simp only [convertStep] at hok
    unfold firstDotSplit at hsplit
    by_cases hdot : hasDot name = true
    · rw [if_pos hdot] at hsplit
      simp at hsplit
    · rw [if_neg hdot] at hok hsplit
      cases hfd : firstDotSplit rest with
      | none => rw [hfd] at hsplit; simp at hsplit
      | some pr =>
        rw [hfd] at hsplit
        simp only [Option.map, Option.some_inj, Prod.mk.injEq, List.cons.injEq] at hsplit
        obtain ⟨⟨h0, h1⟩, h2⟩ := hsplit
        cases hrec : ((lookupKV acc.folders name).getD emptyFolder).extend_iter rest with
        | error e => rw [hrec] at hok; exact Except.noConfusion hok
        | ok sub2 =>
          rw [hrec] at hok
          cases hok
          unfold Folder.fileAtPath
          rw [folders_mk, ← h0, lookupKV_upsert_self]
          have hthis := extend_iter_adds rest _ sub2 pr.1 pr.2 hrec (by rw [hfd])
          show sub2.fileAtPath ds2 nm = true
          rw [← h1, ← h2]
          exact hthis

theorem convertFold_cons {acc fol : Folder} {p : List String} {rest : List (List String)}
    (h : convertFold acc (p :: rest) = .ok fol) :
    ∃ acc2, convertStep acc p = .ok acc2 ∧ convertFold acc2 rest = .ok fol := by
  unfold convertFold at h
  cases hs : convertStep acc p with
  | error e => rw [hs] at h; exact Except.noConfusion h
  | ok acc2 =>
    rw [hs] at h
    exact ⟨acc2, rfl, h⟩

theorem convertFold_preserves :
    ∀ (paths : List (List String)) (acc fol : Folder) (ds : List String) (nm : String),
      convertFold acc paths = .ok fol → acc.fileAtPath ds nm = true →
      fol.fileAtPath ds nm = true := by
  intro paths
  induction paths with
  | nil =>
    intro acc fol ds nm h hfp
    cases h
    exact hfp
  | cons p rest ih =>
    intro acc fol ds nm h hfp
    obtain ⟨acc2, hstep, hfold⟩ := convertFold_cons h
    exact ih acc2 fol ds nm hfold (convertStep_preserves hstep hfp)

theorem convertFold_reappears :
    ∀ (paths : List (List String)) (acc fol : Folder) (p : List String)
      (d0 : String) (ds2 : List String) (nm : String),
      convertFold acc paths = .ok fol → p ∈ paths →
      firstDotSplit p = some (d0 :: ds2, nm) →
      fol.fileAtPath (d0 :: ds2) nm = true := by
  intro paths
  induction paths with
  | nil =>
    intro acc fol p d0 ds2 nm _ hmem _
    exact absurd hmem (List.not_mem_nil p)
  | cons q rest ih =>
    intro acc fol p d0 ds2 nm h hmem hsplit
    obtain ⟨acc2, hstep, hfold⟩ := convertFold_cons h
    rcases List.mem_cons.mp hmem with heq | hmem2
    · subst heq
      exact convertFold_preserves rest acc2 fol _ nm hfold (convertStep_adds hstep hsplit)
    · exact ih acc2 fol p d0 ds2 nm hfold hmem2 hsplit

/-! ## Claim theorems for the pending-log checkpoint upgrade -/

/-- C8 (amended): loading the older checkpoint schema converts each flat
path set to a Folder tree, and every path whose first segment is a
directory name (contains no dot) reappears as the file entry at its first
dot-containing segment; a path whose first segment contains a dot is
silently dropped. -/
theorem C8_old_checkpoint_upgrade :
    ∀ (paths : List String) (fol : Folder) (p : String) (d0 : String)
      (ds2 : List String) (nm : String),
      convert_set paths = .ok fol → p ∈ paths →
      firstDotSplit (splitPath p) = some (d0 :: ds2, nm) →
      fol.fileAtPath (d0 :: ds2) nm = true := by
  intro paths fol p d0 ds2 nm hconv hmem hsplit
  exact convertFold_reappears (paths.map splitPath) emptyFolder fol (splitPath p)
    d0 ds2 nm hconv (List.mem_map_of_mem splitPath hmem) hsplit

/-- Witness for C8: converting the set System/Resource/x.srsizetable makes
the file reappear under System/Resource. -/
theorem C8_old_checkpoint_upgrade_witness :
    convert_set ["System/Resource/x.srsizetable"] = .ok convertedWitnessFolder
    ∧ convertedWitnessFolder.fileAtPath ["System", "Resource"] "x.srsizetable" = true := by
  refine ⟨rfl, ?_⟩
  exact C8_old_checkpoint_upgrade ["System/Resource/x.srsizetable"] convertedWitnessFolder
    "System/Resource/x.srsizetable" "System" ["Resource"] "x.srsizetable"
    rfl (by decide) (by decide)

/-- Counterexample for C8 as stated: the old-schema path a.txt (a top-level
file name, whose first segment contains a dot) is silently dropped by
convert_set, so it does not reappear as a file entry anywhere in the
converted log, contradicting the claim that every path reappears. -/
theorem C8_top_level_file_dropped :
    convert_set ["a.txt"] = .ok emptyFolder
    ∧ emptyFolder.fileAtPath [] "a.txt" = false
    ∧ firstDotSplit (splitPath "a.txt") = some ([], "a.txt") := by
  refine ⟨rfl, by decide, by decide⟩

/-! ## Tree-diffing lemmas -/

theorem mem_of_lookupKV {V : Type} {l : List (String × V)} {k : String} {v : V}
    (h : lookupKV l k = some v) : (k, v) ∈ l := by
  unfold lookupKV at h
  cases hf : l.find? (fun p => decide (p.1 = k)) with
  | none => rw [hf] at h; simp at h
  | some p =>
    rw [hf] at h
    have hmem := List.mem_of_find?_eq_some hf
    have hpred := List.find?_some hf
    simp only [decide_eq_true_eq] at hpred
    simp at h
    have hpkv : p = (k, v) := by
      obtain ⟨p1, p2⟩ := p
      simp_all
    rwa [hpkv] at hmem

theorem lookupKV_of_mem_nodup {V : Type} {l : List (String × V)} {k : String} {v : V}
    (hm : (k, v) ∈ l) (hnd : (l.map Prod.fst).Nodup) : lookupKV l k = some v := by
  induction l with
  | nil => exact absurd hm (List.not_mem_nil _)
  | cons q rest ih =>
    rw [List.map_cons, List.nodup_cons] at hnd
    rcases List.mem_cons.mp hm with heq | hmem2
    · rw [← heq, lookupKV_cons_self rfl]
    · have hk : k ∈ rest.map Prod.fst := List.mem_map.mpr ⟨(k, v), hmem2, rfl⟩
      rw [lookupKV_cons_ne (fun hc => hnd.1 (hc ▸ hk))]
      exact ih hmem2 hnd.2

theorem lookupKV_isSome_of_mem_keys {V : Type} {l : List (String × V)} {k : String}
    (h : k ∈ l.map Prod.fst) : (lookupKV l k).isSome := by
  rw [List.mem_map] at h
  obtain ⟨p, hp, hpk⟩ := h
  unfold lookupKV
  cases hf : l.find? (fun q => decide (q.1 = k)) with
  | some q => simp
  | none =>
    rw [List.find?_eq_none] at hf
    exact absurd (by simpa using hpk) (hf p hp)

theorem fsys_files_node (fs : List (String × Nat)) (ds : List (String × Nat × Fsys)) :
    (Fsys.node fs ds).files = fs := rfl

theorem fsys_dirs_node (fs : List (String × Nat)) (ds : List (String × Nat × Fsys)) :
    (Fsys.node fs ds).dirs = ds := rfl

theorem emptyFs_entryAt (ds : List String) (nm : String) :
    emptyFs.entryAt ds nm = none := by
  cases ds with
  | nil => rfl
  | cons d rest => rfl

theorem fsys_entryAt_nil (t : Fsys) (nm : String) :
    t.entryAt [] nm = t.entryMtime nm := rfl

theorem fsys_entryAt_cons (t : Fsys) (d : String) (rest : List String) (nm : String) :
    t.entryAt (d :: rest) nm
      = match t.lookupDir d with
        | some sub => sub.entryAt rest nm
        | none => none := rfl

theorem fsys_fileAt_nil (t : Fsys) (nm : String) :
    t.fileAt [] nm = lookupKV t.files nm := rfl

theorem fsys_fileAt_cons (t : Fsys) (d : String) (rest : List String) (nm : String) :
    t.fileAt (d :: rest) nm
      = match t.lookupDir d with
        | some sub => sub.fileAt rest nm
        | none => none := rfl

theorem getD_lookupDir_entryAt (dst : Fsys) (d : String) (rest : List String)
    (nm : String) :
    ((dst.lookupDir d).getD emptyFs).entryAt rest nm = dst.entryAt (d :: rest) nm := by
  rw [fsys_entryAt_cons]
  cases hld : dst.lookupDir d with
  | some sub => rfl
  | none => exact emptyFs_entryAt rest nm

theorem empty_folder_fileAtPath (c : Folder) (h : c.has_some = false)
    (ds : List String) (nm : String) : c.fileAtPath ds nm = false := by
  obtain ⟨fs, fl⟩ := c
  unfold Folder.has_some at h
  rw [Bool.or_eq_false_iff] at h
  have hfl : fl = [] := by
    have := h.1
    rw [files_mk] at this
    simpa using this
  have hfs : fs = [] := by
    have := h.2
    rw [folders_mk] at this
    simpa using this
  subst hfl
  subst hfs
  cases ds with
  | nil =>
    unfold Folder.fileAtPath
    rw [files_mk]
    simp
  | cons d rest =>
    unfold Folder.fileAtPath
    rw [folders_mk]
    rfl

theorem keys_cmd_sub :
    ∀ (ds : List (String × Nat × Fsys)) (dst : Fsys) (k : String),
      k ∈ (compile_moves_dirs ds dst).map Prod.fst → k ∈ ds.map Prod.fst := by
  intro ds
  induction ds with
  | nil =>
    intro dst k h
    simp [compile_moves_dirs] at h
  | cons e rest ih =>
    intro dst k h
    obtain ⟨name, mt, sub⟩ := e
    unfold compile_moves_dirs at h
    rw [List.map_append, List.mem_append] at h
    rw [List.map_cons, List.mem_cons]
    rcases h with h | h
    · by_cases hc : (compile_moves sub ((dst.lookupDir name).getD emptyFs)).has_some = true
      · rw [if_pos hc] at h
        simp at h
        exact Or.inl h
      · rw [if_neg hc] at h
        simp at h
    · exact Or.inr (ih dst k h)

theorem lookup_cmd_none (ds : List (String × Nat × Fsys)) (dst : Fsys) (d : String)
    (h : d ∉ ds.map Prod.fst) :
    lookupKV (compile_moves_dirs ds dst) d = none := by
  unfold lookupKV
  rw [List.find?_eq_none.mpr]
  · rfl
  · intro x hx
    simp only [decide_eq_true_eq]
    intro hc
    exact h (keys_cmd_sub ds dst d (List.mem_map.mpr ⟨x, hx, hc⟩))

theorem wfbDirs_mem :
    ∀ (ds : List (String × Nat × Fsys)) {name : String} {mt : Nat} {sub : Fsys},
      wfbDirs ds = true → (name, mt, sub) ∈ ds → sub.wfb = true := by
  intro ds
  induction ds with
  | nil =>
    intro name mt sub _ hm
    exact absurd hm (List.not_mem_nil _)
  | cons e rest ih =>
    intro name mt sub hw hm
    obtain ⟨n0, m0, s0⟩ := e
    unfold wfbDirs at hw
    rw [Bool.and_eq_true] at hw
    rcases List.mem_cons.mp hm with heq | hmem2
    · cases heq
      exact hw.1
    · exact ih hw.2 hmem2

theorem lookup_cmd_some (ds : List (String × Nat × Fsys)) (dst : Fsys) (d : String)
    (mt : Nat) (sub : Fsys) (hnd : (ds.map Prod.fst).Nodup) (hm : (d, mt, sub) ∈ ds) :
    lookupKV (compile_moves_dirs ds dst) d
      = (if (compile_moves sub ((dst.lookupDir d).getD emptyFs)).has_some then
          some (compile_moves sub ((dst.lookupDir d).getD emptyFs)) else none) := by
  induction ds with
  | nil => exact absurd hm (List.not_mem_nil _)
  | cons e rest ih =>
    obtain ⟨n0, m0, s0⟩ := e
    rw [List.map_cons, List.nodup_cons] at hnd
    unfold compile_moves_dirs
    rcases List.mem_cons.mp hm with heq | hmem2
    · injection heq with h1 h2
      injection h2 with h2a h2b
      subst h1
      subst h2b
      by_cases hc : (compile_moves sub ((dst.lookupDir d).getD emptyFs)).has_some = true
      · rw [if_pos hc, if_pos hc, List.singleton_append, lookupKV_cons_self rfl]
      · rw [if_neg hc, if_neg hc, List.nil_append,
          lookup_cmd_none rest dst d hnd.1]
    · have hdk : d ∈ rest.map Prod.fst := List.mem_map.mpr ⟨(d, mt, sub), hmem2, rfl⟩
      have hne : ¬ n0 = d := fun hc => hnd.1 (hc ▸ hdk)
      by_cases hc : (compile_moves s0 ((dst.lookupDir n0).getD emptyFs)).has_some = true
      · rw [if_pos hc, List.singleton_append, lookupKV_cons_ne hne]
        exact ih hnd.2 hmem2
      · rw [if_neg hc, List.nil_append]
        exact ih hnd.2 hmem2

theorem should_move_none (mt : Nat) : should_move mt none = true := rfl

theorem should_move_some (mt mt2 : Nat) :
    should_move mt (some mt2) = decide (mt ≠ mt2) := rfl

theorem fsys_lookupDir_node (fs : List (String × Nat)) (ds : List (String × Nat × Fsys))
    (d : String) : (Fsys.node fs ds).lookupDir d = (lookupKV ds d).map Prod.snd := rfl

/-- A file is selected by compile_moves exactly when it is a source file
that is missing at the matching destination path or whose modification time
differs from the entry there. -/
theorem cm_fileAtPath :
    ∀ (ds : List String) (src dst : Fsys) (nm : String), src.wfb = true →
      ((compile_moves src dst).fileAtPath ds nm = true ↔
        (∃ mt, src.fileAt ds nm = some mt ∧ dst.entryAt ds nm ≠ some mt)) := by
  intro ds
  induction ds with
  | nil =>
    intro src dst nm hwf
    obtain ⟨fs, ds0⟩ := src
    unfold Fsys.wfb at hwf
    rw [Bool.and_eq_true, Bool.and_eq_true] at hwf
    have hndf : (fs.map Prod.fst).Nodup := by simpa using hwf.1.1
    unfold compile_moves Folder.fileAtPath
    rw [files_mk, fsys_fileAt_nil, fsys_entryAt_nil, fsys_files_node]
    constructor
    · intro h
      simp only [decide_eq_true_eq] at h
      rw [List.mem_map] at h
      obtain ⟨f, hf, hfnm⟩ := h
      rw [List.mem_filter] at hf
      obtain ⟨hfm, hsm⟩ := hf
      refine ⟨f.2, ?_, ?_⟩
      · have hfm2 : (nm, f.2) ∈ fs := by
          have hfeq : f = (nm, f.2) := by
            obtain ⟨f1, f2⟩ := f
            simp_all
          rwa [hfeq] at hfm
        exact lookupKV_of_mem_nodup hfm2 hndf
      · rw [← hfnm]
        cases hdm : dst.entryMtime f.1 with
        | none => simp
        | some mt2 =>
          rw [hdm, should_move_some] at hsm
          simp only [decide_eq_true_eq] at hsm
          simp only [ne_eq, Option.some_inj]
          exact fun hc => hsm hc.symm
    · rintro ⟨mt, hla, hne⟩
      have hmem := mem_of_lookupKV hla
      simp only [decide_eq_true_eq]
      rw [List.mem_map]
      refine ⟨(nm, mt), ?_, rfl⟩
      rw [List.mem_filter]
      refine ⟨hmem, ?_⟩
      cases hdm : dst.entryMtime nm with
      | none => exact should_move_none mt
      | some mt2 =>
        rw [should_move_some]
        simp only [decide_eq_true_eq]
        intro hc
        exact hne (by rw [hdm, hc])
  | cons d rest ih =>
    intro src dst nm hwf
    obtain ⟨fs, ds0⟩ := src
    unfold Fsys.wfb at hwf
    rw [Bool.and_eq_true, Bool.and_eq_true] at hwf
    have hndd : (ds0.map Prod.fst).Nodup := by simpa using hwf.1.2
    unfold compile_moves Folder.fileAtPath
    rw [folders_mk, fsys_fileAt_cons, fsys_lookupDir_node, ← getD_lookupDir_entryAt]
    cases hld : lookupKV ds0 d with
    | none =>
      have hnk : d ∉ ds0.map Prod.fst := by
        intro hk
        have hs := lookupKV_isSome_of_mem_keys hk
        rw [hld] at hs
        simp at hs
      rw [lookup_cmd_none ds0 dst d hnk]
      simp
    | some pr =>
      obtain ⟨mt0, sub⟩ := pr
      have hmem := mem_of_lookupKV hld
      have hwfsub : sub.wfb = true := wfbDirs_mem ds0 (by simpa using hwf.2) hmem
      rw [lookup_cmd_some ds0 dst d mt0 sub hndd hmem]
      by_cases hc : (compile_moves sub ((dst.lookupDir d).getD emptyFs)).has_some = true
      · rw [if_pos hc]
        exact ih sub ((dst.lookupDir d).getD emptyFs) nm hwfsub
      · rw [if_neg hc]
        constructor
        · intro h
          exact absurd h (by simp)
        · rintro ⟨mt, hfa, hne⟩
          have h2 : (compile_moves sub
              ((dst.lookupDir d).getD emptyFs)).fileAtPath rest nm = true :=
            (ih sub ((dst.lookupDir d).getD emptyFs) nm hwfsub).mpr ⟨mt, hfa, hne⟩
          rw [empty_folder_fileAtPath _ (by simpa using hc) rest nm] at h2
          exact absurd h2 (by simp)

theorem keys_cdd_sub :
    ∀ (ds : List (String × Nat × Fsys)) (based : Fsys) (k : String),
      k ∈ (compile_deletes_dirs ds based).map Prod.fst → k ∈ ds.map Prod.fst := by
  intro ds
  induction ds with
  | nil =>
    intro based k h
    simp [compile_deletes_dirs] at h
  | cons e rest ih =>
    intro based k h
    obtain ⟨name, mt, sub⟩ := e
    unfold compile_deletes_dirs at h
    rw [List.map_append, List.mem_append] at h
    rw [List.map_cons, List.mem_cons]
    rcases h with h | h
    · by_cases hc : (compile_deletes sub ((based.lookupDir name).getD emptyFs)).has_some = true
      · rw [if_pos hc] at h
        simp at h
        exact Or.inl h
      · rw [if_neg hc] at h
        simp at h
    · exact Or.inr (ih based k h)

theorem lookup_cdd_none (ds : List (String × Nat × Fsys)) (based : Fsys) (d : String)
    (h : d ∉ ds.map Prod.fst) :
    lookupKV (compile_deletes_dirs ds based) d = none := by
  unfold lookupKV
  rw [List.find?_eq_none.mpr]
  · rfl
  · intro x hx
    simp only [decide_eq_true_eq]
    intro hc
    exact h (keys_cdd_sub ds based d (List.mem_map.mpr ⟨x, hx, hc⟩))

theorem lookup_cdd_some (ds : List (String × Nat × Fsys)) (based : Fsys) (d : String)
    (mt : Nat) (sub : Fsys) (hnd : (ds.map Prod.fst).Nodup) (hm : (d, mt, sub) ∈ ds) :
    lookupKV (compile_deletes_dirs ds based) d
      = (if (compile_deletes sub ((based.lookupDir d).getD emptyFs)).has_some then
          some (compile_deletes sub ((based.lookupDir d).getD emptyFs)) else none) := by
  induction ds with
  | nil => exact absurd hm (List.not_mem_nil _)
  | cons e rest ih =>
    obtain ⟨n0, m0, s0⟩ := e
    rw [List.map_cons, List.nodup_cons] at hnd
    unfold compile_deletes_dirs
    rcases List.mem_cons.mp hm with heq | hmem2
    · injection heq with h1 h2
      injection h2 with h2a h2b
      subst h1
      subst h2b
      by_cases hc : (compile_deletes sub ((based.lookupDir d).getD emptyFs)).has_some = true
      · rw [if_pos hc, if_pos hc, List.singleton_append, lookupKV_cons_self rfl]
      · rw [if_neg hc, if_neg hc, List.nil_append,
          lookup_cdd_none rest based d hnd.1]
    · have hdk : d ∈ rest.map Prod.fst := List.mem_map.mpr ⟨(d, mt, sub), hmem2, rfl⟩
      have hne : ¬ n0 = d := fun hc => hnd.1 (hc ▸ hdk)
      by_cases hc : (compile_deletes s0 ((based.lookupDir n0).getD emptyFs)).has_some = true
      · rw [if_pos hc, List.singleton_append, lookupKV_cons_ne hne]
        exact ih hnd.2 hmem2
      · rw [if_neg hc, List.nil_append]
        exact ih hnd.2 hmem2

/-- A file is selected by compile_deletes exactly when it is a destination
file whose matching source path has no entry at all. -/
theorem cd_fileAtPath :
    ∀ (ds : List String) (dest based : Fsys) (nm : String), dest.wfb = true →
      ((compile_deletes dest based).fileAtPath ds nm = true ↔
        ((dest.fileAt ds nm).isSome ∧ based.entryAt ds nm = none)) := by
  intro ds
  induction ds with
  | nil =>
    intro dest based nm hwf
    obtain ⟨fs, ds0⟩ := dest
    unfold Fsys.wfb at hwf
    rw [Bool.and_eq_true, Bool.and_eq_true] at hwf
    have hndf : (fs.map Prod.fst).Nodup := by simpa using hwf.1.1
    unfold compile_deletes Folder.fileAtPath
    rw [files_mk, fsys_fileAt_nil, fsys_entryAt_nil, fsys_files_node]
    constructor
    · intro h
      simp only [decide_eq_true_eq] at h
      rw [List.mem_map] at h
      obtain ⟨f, hf, hfnm⟩ := h
      rw [List.mem_filter] at hf
      obtain ⟨hfm, hsd⟩ := hf
      have hfm2 : (nm, f.2) ∈ fs := by
        have hfeq : f = (nm, f.2) := by
          obtain ⟨f1, f2⟩ := f
          simp_all
        rwa [hfeq] at hfm
      constructor
      · rw [lookupKV_of_mem_nodup hfm2 hndf]
        rfl
      · unfold should_delete at hsd
        rw [← hfnm]
        simpa using hsd
    · rintro ⟨hsome, hnone⟩
      obtain ⟨mt, hla⟩ := Option.isSome_iff_exists.mp hsome
      have hmem := mem_of_lookupKV hla
      simp only [decide_eq_true_eq]
      rw [List.mem_map]
      refine ⟨(nm, mt), ?_, rfl⟩
      rw [List.mem_filter]
      refine ⟨hmem, ?_⟩
      unfold should_delete
      rw [hnone]
      rfl
  | cons d rest ih =>
    intro dest based nm hwf
    obtain ⟨fs, ds0⟩ := dest
    unfold Fsys.wfb at hwf
    rw [Bool.and_eq_true, Bool.and_eq_true] at hwf
    have hndd : (ds0.map Prod.fst).Nodup := by simpa using hwf.1.2
    unfold compile_deletes Folder.fileAtPath
    rw [folders_mk, fsys_fileAt_cons, fsys_lookupDir_node, ← getD_lookupDir_entryAt]
    cases hld : lookupKV ds0 d with
    | none =>
      have hnk : d ∉ ds0.map Prod.fst := by
        intro hk
        have hs := lookupKV_isSome_of_mem_keys hk
        rw [hld] at hs
        simp at hs
      rw [lookup_cdd_none ds0 based d hnk]
      simp
    | some pr =>
      obtain ⟨mt0, sub⟩ := pr
      have hmem := mem_of_lookupKV hld
      have hwfsub : sub.wfb = true := wfbDirs_mem ds0 (by simpa using hwf.2) hmem
      rw [lookup_cdd_some ds0 based d mt0 sub hndd hmem]
      by_cases hc : (compile_deletes sub ((based.lookupDir d).getD emptyFs)).has_some = true
      · rw [if_pos hc]
        exact ih sub ((based.lookupDir d).getD emptyFs) nm hwfsub
      · rw [if_neg hc]
        constructor
        · intro h
          exact absurd h (by simp)
        · rintro ⟨hsome, hnone⟩
          have h2 : (compile_deletes sub
              ((based.lookupDir d).getD emptyFs)).fileAtPath rest nm = true :=
            (ih sub ((based.lookupDir d).getD emptyFs) nm hwfsub).mpr ⟨hsome, hnone⟩
          rw [empty_folder_fileAtPath _ (by simpa using hc) rest nm] at h2
          exact absurd h2 (by simp)

theorem mem_cmd_shape :
    ∀ (ds : List (String × Nat × Fsys)) (dst : Fsys) (k : String) (c : Folder),
      (k, c) ∈ compile_moves_dirs ds dst →
      c.has_some = true ∧ ∃ mt sub, (k, mt, sub) ∈ ds
        ∧ c = compile_moves sub ((dst.lookupDir k).getD emptyFs) := by
  intro ds
  induction ds with
  | nil =>
    intro dst k c h
    simp [compile_moves_dirs] at h
  | cons e rest ih =>
    intro dst k c h
    obtain ⟨n0, m0, s0⟩ := e
    unfold compile_moves_dirs at h
    rw [List.mem_append] at h
    rcases h with h | h
    · by_cases hc : (compile_moves s0 ((dst.lookupDir n0).getD emptyFs)).has_some = true
      · rw [if_pos hc] at h
        rw [List.mem_singleton] at h
        injection h with h1 h2
        subst h1
        subst h2
        exact ⟨hc, m0, s0, List.mem_cons_self _ _, rfl⟩
      · rw [if_neg hc] at h
        simp at h
    · obtain ⟨hcs, mt, sub, hm, hceq⟩ := ih dst k c h
      exact ⟨hcs, mt, sub, List.mem_cons_of_mem _ hm, hceq⟩

/-- Every directory entry that compile_moves keeps holds at least one
included file or subdirectory. -/
theorem cm_dir_nonempty :
    ∀ (ds : List String) (src dst : Fsys) (f : Folder) (d : String),
      (compile_moves src dst).dirAtPath (d :: ds) = some f → f.has_some = true := by
  intro ds
  induction ds with
  | nil =>
    intro src dst f d h
    obtain ⟨fs, ds0⟩ := src
    unfold compile_moves Folder.dirAtPath at h
    rw [folders_mk] at h
    cases hlk : lookupKV (compile_moves_dirs ds0 dst) d with
    | none => rw [hlk] at h; exact absurd h (by simp)
    | some c =>
      rw [hlk] at h
      have hfc : f = c := by
        have hcc : c.dirAtPath [] = some f := h
        unfold Folder.dirAtPath at hcc
        exact (Option.some_inj.mp hcc).symm
      subst hfc
      exact (mem_cmd_shape ds0 dst d f (mem_of_lookupKV hlk)).1
  | cons d2 rest ih =>
    intro src dst f d h
    obtain ⟨fs, ds0⟩ := src
    unfold compile_moves Folder.dirAtPath at h
    rw [folders_mk] at h
    cases hlk : lookupKV (compile_moves_dirs ds0 dst) d with
    | none => rw [hlk] at h; exact absurd h (by simp)
    | some c =>
      rw [hlk] at h
      obtain ⟨hcs, mt, sub, hsm, hceq⟩ := mem_cmd_shape ds0 dst d c (mem_of_lookupKV hlk)
      subst hceq
      exact ih sub ((dst.lookupDir d).getD emptyFs) f d2 h

/-! ## Claim theorems for filesystem tree diffing -/

/-- C6 (amended): over well-formed snapshots, compile_moves selects exactly
the source files that are missing at the matching dest path or whose
modification time differs from the entry there, and includes a directory
only when its compiled subtree contains an included file or subdirectory;
compile_deletes selects exactly the dest files whose matching source path
has no entry (not: no counterpart anywhere in source). -/
theorem C6_tree_diffing :
    (∀ (ds : List String) (src dst : Fsys) (nm : String), src.wfb = true →
      ((compile_moves src dst).fileAtPath ds nm = true ↔
        ∃ mt, src.fileAt ds nm = some mt ∧ dst.entryAt ds nm ≠ some mt))
    ∧ (∀ (ds : List String) (src dst : Fsys) (f : Folder) (d : String),
        (compile_moves src dst).dirAtPath (d :: ds) = some f → f.has_some = true)
    ∧ (∀ (ds : List String) (dest based : Fsys) (nm : String), dest.wfb = true →
        ((compile_deletes dest based).fileAtPath ds nm = true ↔
          ((dest.fileAt ds nm).isSome ∧ based.entryAt ds nm = none))) :=
  ⟨cm_fileAtPath, cm_dir_nonempty, cd_fileAtPath⟩

/-- Witness for C6: the scenario-2 trees — a staging x.bin with a changed
modification time is selected as a move, and the deployed extra file under
directory a is selected as a delete. -/
theorem C6_tree_diffing_witness :
    srcW.wfb = true
    ∧ (compile_moves srcW dstW).fileAtPath [] "x.bin" = true
    ∧ dstCE.wfb = true
    ∧ (compile_deletes dstCE srcCE).fileAtPath ["a"] "x.bin" = true :=
  ⟨by decide,
    (C6_tree_diffing.1 [] srcW dstW "x.bin" (by decide)).mpr
      ⟨5, by decide, by decide⟩,
    by decide,
    (C6_tree_diffing.2.2 ["a"] dstCE srcCE "x.bin" (by decide)).mpr
      ⟨by decide, by decide⟩⟩

/-- Counterexample for C6 as stated: the destination file a/x.bin is
selected for deletion by compile_deletes even though a counterpart named
x.bin exists elsewhere in the source (at b/x.bin), contradicting the claim
that exactly the dest files with no counterpart anywhere in source are
selected. -/
theorem C6_delete_not_anywhere :
    (compile_deletes dstCE srcCE).fileAtPath ["a"] "x.bin" = true
    ∧ srcCE.fileAt ["b"] "x.bin" = some 5 := by
  refine ⟨by decide, by decide⟩

/-! ## Digit and padding lemmas for recipe key parsing -/

theorem digitChar_isDigit : ∀ d : Nat, (digitChar d).isDigit = true := by
  intro d
  unfold digitChar
  rcases d with _|_|_|_|_|_|_|_|_|_ <;> rfl

theorem digitVal_digitChar : ∀ d : Nat, d < 10 → digitVal (digitChar d) = d := by
  intro d hd
  unfold digitChar
  interval_cases d <;> rfl

theorem natToDigitsAux_digits :
    ∀ (fuel n : Nat) (c : Char), c ∈ natToDigitsAux fuel n → c.isDigit = true := by
  intro fuel
  induction fuel with
  | zero =>
    intro n c hc
    simp [natToDigitsAux] at hc
  | succ fuel ih =>
    intro n c hc
    unfold natToDigitsAux at hc
    by_cases hn : n = 0
    · rw [if_pos hn] at hc
      simp at hc
    · rw [if_neg hn] at hc
      rw [List.mem_append] at hc
      rcases hc with hc | hc
      · exact ih (n / 10) c hc
      · rw [List.mem_singleton] at hc
        rw [hc]
        exact digitChar_isDigit (n % 10)

theorem digitsToNat_append_one (l : List Char) (c : Char) :
    digitsToNat (l ++ [c]) = 10 * digitsToNat l + digitVal c := by
  unfold digitsToNat
  rw [List.foldl_append]
  simp [Nat.mul_comm]

theorem natToDigitsAux_correct :
    ∀ (fuel n : Nat), n ≤ fuel → digitsToNat (natToDigitsAux fuel n) = n := by
  intro fuel
  induction fuel with
  | zero =>
    intro n hn
    have : n = 0 := by omega
    subst this
    rfl
  | succ fuel ih =>
    intro n hn
    unfold natToDigitsAux
    by_cases hz : n = 0
    · rw [if_pos hz, hz]
      rfl
    · rw [if_neg hz, digitsToNat_append_one,
        ih (n / 10) (by omega), digitVal_digitChar (n % 10) (by omega)]
      omega

theorem digitsToNat_natToDigits (n : Nat) : digitsToNat (natToDigits n) = n :=
  natToDigitsAux_correct n n (Nat.le_refl n)

theorem digitsToNat_replicate_zeros (z : Nat) (l : List Char) :
    digitsToNat (List.replicate z '0' ++ l) = digitsToNat l := by
  induction z with
  | zero => rfl
  | succ z ih =>
    rw [List.replicate_succ, List.cons_append]
    unfold digitsToNat at ih ⊢
    simpa using ih

theorem digitsToNat_padChars (i w : Nat) : digitsToNat (padChars i w) = i := by
  unfold padChars
  rw [digitsToNat_replicate_zeros, digitsToNat_natToDigits]

theorem padChars_digits (i w : Nat) (c : Char) (hc : c ∈ padChars i w) :
    c.isDigit = true := by
  unfold padChars at hc
  rw [List.mem_append] at hc
  rcases hc with hc | hc
  · rw [List.eq_of_mem_replicate hc]
    rfl
  · exact natToDigitsAux_digits i i c hc

theorem padChars_ne_nil (i w : Nat) (hw : 1 ≤ w) : padChars i w ≠ [] := by
  unfold padChars
  cases hd : natToDigits i with
  | nil =>
    simp only [List.length_nil, Nat.sub_zero, List.append_nil]
    simp only [ne_eq, List.replicate_eq_nil_iff]
    omega
  | cons c rest =>
    simp

theorem takeWhile_all {p : Char → Bool} (l : List Char)
    (h : ∀ c ∈ l, p c = true) : l.takeWhile p = l :=
  List.takeWhile_eq_self_iff.mpr h

/-- Literal suffix digits at any padding width resolve to the padded
index. -/
theorem parse_item_index_pad (pre : List Char) (i w : Nat) (hw : 1 ≤ w) :
    parse_item_index (pre ++ padChars i w) pre = some i := by
  unfold parse_item_index
  rw [if_pos (List.take_left pre (padChars i w)), List.drop_left]
  rw [takeWhile_all (padChars i w).reverse
    (fun c hc => padChars_digits i w c (List.mem_reverse.mp hc))]
  rw [List.reverse_reverse]
  rw [if_neg (by simpa using padChars_ne_nil i w hw)]
  rw [digitsToNat_padChars]

/-- An ItemNum key never parses with the ItemName prefix: character 5 is u
against a. -/
theorem parse_itemNum_not_itemName (i w : Nat) :
    parse_item_index (itemNumKeyC i w) "ItemName".toList = none := by
  unfold parse_item_index
  rw [if_neg]
  intro hcond
  have h5 := congrArg (fun l => l.get? 5) hcond
  simp only [] at h5
  rw [List.get?_take (by decide : (5 : Nat) < ("ItemName".toList).length)] at h5
  unfold itemNumKeyC at h5
  rw [List.get?_append (by decide : (5 : Nat) < ("ItemNum".toList).length)] at h5
  exact absurd h5 (by decide)

/-- A key made of digits only (an unknown hash printed as its number) never
parses with a prefix that starts with a non-digit character. -/
theorem parse_item_index_digits_none (cs pre : List Char) (c0 : Char)
    (hpre : pre.get? 0 = some c0) (hc0 : c0.isDigit = false)
    (hdig : ∀ c ∈ cs, c.isDigit = true) :
    parse_item_index cs pre = none := by
  unfold parse_item_index
  rw [if_neg]
  intro hcond
  have h0 := congrArg (fun l => l.get? 0) hcond
  simp only [] at h0
  rw [hpre] at h0
  cases cs with
  | nil =>
    rw [List.take_nil] at h0
    simp at h0
  | cons c rest =>
    have hlen : 0 < pre.length := by
      cases pre with
      | nil => simp at hpre
      | cons p ps => simp
    obtain ⟨m, hm⟩ : ∃ m, pre.length = m + 1 := ⟨pre.length - 1, by omega⟩
    rw [hm, List.take_succ_cons] at h0
    simp only [List.get?] at h0
    have hcc : c = c0 := Option.some_inj.mp h0
    have := hdig c (List.mem_cons_self c rest)
    rw [hcc, hc0] at this
    exact absurd this (by simp)

/-! ## Stage-one literal key resolution -/

theorem toList_mk (cs : List Char) : (String.mk cs).toList = cs := rfl

theorem btSetName_append_big (m : EntryMap) (i : Nat) (nm : String)
    (h : ∀ e ∈ m, e.1 < i) : btSetName m i nm = m ++ [(i, some nm, none)] := by
  induction m with
  | nil => rfl
  | cons e rest ih =>
    have he := h e (List.mem_cons_self e rest)
    unfold btSetName
    rw [if_neg (by omega), if_neg (by omega),
      ih (fun e2 he2 => h e2 (List.mem_cons_of_mem e he2))]
    rfl

theorem btSetNum_last (m : EntryMap) (i : Nat) (x : Option String) (y : Option Nat)
    (c : Nat) (h : ∀ e ∈ m, e.1 < i) :
    btSetNum (m ++ [(i, x, y)]) i c = m ++ [(i, x, some c)] := by
  induction m with
  | nil =>
    simp only [List.nil_append]
    unfold btSetNum
    rw [if_neg (by omega), if_pos rfl]
  | cons e rest ih =>
    have he := h e (List.mem_cons_self e rest)
    simp only [List.cons_append]
    unfold btSetNum
    rw [if_neg (by omega), if_neg (by omega),
      ih (fun e2 he2 => h e2 (List.mem_cons_of_mem e he2))]

theorem parseKeysStep_litName (m : EntryMap) (i w : Nat) (hw : 1 ≤ w) (nm : String) :
    parseKeysStep m (PKey.lit (String.mk (itemNameKeyC i w)), Param.str64 nm)
      = .ok (btSetName m i nm) := by
  simp only [parseKeysStep, PKey.str, toList_mk]
  unfold itemNameKeyC
  rw [parse_item_index_pad "ItemName".toList i w hw]
  rfl

theorem parseKeysFold_cons_ok {m m2 : EntryMap} {kv : PKey × Param}
    {rest : List (PKey × Param)} (h : parseKeysStep m kv = .ok m2) :
    parseKeysFold m (kv :: rest) = parseKeysFold m2 rest := by
  show (match parseKeysStep m kv with
    | .ok m2 => parseKeysFold m2 rest
    | .error e => .error e) = parseKeysFold m2 rest
  rw [h]

theorem parseKeysStep_litNum (m : EntryMap) (i w : Nat) (hw : 1 ≤ w) (c : Nat)
    (hc : c ≤ 255) :
    parseKeysStep m (PKey.lit (String.mk (itemNumKeyC i w)), Param.i32 c)
      = .ok (btSetNum m i c) := by
  simp only [parseKeysStep, PKey.str, toList_mk]
  rw [parse_itemNum_not_itemName i w]
  have hnum : parse_item_index (itemNumKeyC i w) "ItemNum".toList = some i := by
    unfold itemNumKeyC
    exact parse_item_index_pad "ItemNum".toList i w hw
  rw [hnum]
  simp only [parse_recipe_count, Param.as_int]
  rw [if_pos (by constructor <;> omega)]
  simp

theorem parseKeysFold_lit :
    ∀ (items : List (String × Nat)) (start : Nat) (m : EntryMap) (w : Nat),
      1 ≤ w →
      (∀ e ∈ m, e.1 < start) →
      (∀ pr ∈ items, pr.2 ≤ 255) →
      parseKeysFold m ((items.enumFrom start).flatMap (fun pr =>
        [(PKey.lit (String.mk (itemNameKeyC pr.1 w)), Param.str64 pr.2.1),
         (PKey.lit (String.mk (itemNumKeyC pr.1 w)), Param.i32 pr.2.2)]))
      = .ok (m ++ (items.enumFrom start).map
          (fun pr => (pr.1, some pr.2.1, some pr.2.2))) := by
  intro items
  induction items with
  | nil =>
    intro start m w _ _ _
    simp [List.enumFrom, parseKeysFold]
  | cons it rest ih =>
    intro start m w hw hm h255
    obtain ⟨nm, c⟩ := it
    simp only [List.enumFrom, List.flatMap_cons, List.cons_append, List.nil_append]
    rw [parseKeysFold_cons_ok (parseKeysStep_litName m start w hw nm),
      btSetName_append_big m start nm hm,
      parseKeysFold_cons_ok (parseKeysStep_litNum (m ++ [(start, some nm, none)])
        start w hw c (h255 (nm, c) (List.mem_cons_self _ _))),
      btSetNum_last m start (some nm) none c hm]
    have hm2 : ∀ e ∈ m ++ [(start, some nm, some c)], e.1 < start + 1 := by
      intro e he
      rw [List.mem_append] at he
      rcases he with he | he
      · have := hm e he
        omega
      · rw [List.mem_singleton] at he
        rw [he]
        omega
    rw [ih (start + 1) (m ++ [(start, some nm, some c)]) w hw hm2
      (fun pr hpr => h255 pr (List.mem_cons_of_mem _ hpr))]
    simp [List.map_cons]

set_option maxRecDepth 100000 in
set_option maxHeartbeats 8000000 in
/-- ColumnNum is not one of the 4000 recipe key hashes, so the key-driven
pass ignores it (computed once over the whole lazily built table). -/
theorem identify_ColumnNum_none :
    identify_recipe_key (crc32 "ColumnNum".toList) = none := by
  decide

/-- A key that is neither a literal recipe key nor a known hash is
ignored. -/
theorem parseKeysStep_skip (m : EntryMap) (kv : PKey × Param)
    (h1 : parse_item_index kv.1.str "ItemName".toList = none)
    (h2 : parse_item_index kv.1.str "ItemNum".toList = none)
    (h3 : identify_recipe_key kv.1.hash = none) :
    parseKeysStep m kv = .ok m := by
  unfold parseKeysStep
  rw [h1, h2, h3]

theorem parseKeysStep_ColumnNum (m : EntryMap) (p : Param) :
    parseKeysStep m (PKey.lit "ColumnNum", p) = .ok m := by
  have h1 : parse_item_index (PKey.lit "ColumnNum").str "ItemName".toList = none := by
    decide
  have h2 : parse_item_index (PKey.lit "ColumnNum").str "ItemNum".toList = none := by
    decide
  exact parseKeysStep_skip m (PKey.lit "ColumnNum", p) h1 h2 identify_ColumnNum_none

theorem entriesAux_complete :
    ∀ (prs : List (Nat × String × Nat)) (acc : List (String × Nat)),
      entriesToTableAux acc (prs.map (fun pr => (pr.1, some pr.2.1, some pr.2.2)))
        = .ok (prs.foldl (fun a pr => upsertKV a pr.2.1 pr.2.2) acc) := by
  intro prs
  induction prs with
  | nil => intro acc; rfl
  | cons pr rest ih =>
    intro acc
    obtain ⟨i, nm, c⟩ := pr
    simp only [List.map_cons]
    exact ih (upsertKV acc nm c)

theorem upsertKV_fresh {V : Type} (l : List (String × V)) (k : String) (v : V)
    (h : k ∉ l.map Prod.fst) : upsertKV l k v = l ++ [(k, v)] := by
  induction l with
  | nil => rfl
  | cons q rest ih =>
    rw [List.map_cons, List.mem_cons] at h
    push_neg at h
    unfold upsertKV
    rw [if_neg (fun hc => h.1 hc.symm), ih h.2]
    rfl

theorem foldl_upsert_fresh :
    ∀ (items : List (String × Nat)) (acc : List (String × Nat)),
      (items.map Prod.fst).Nodup →
      (∀ k ∈ acc.map Prod.fst, k ∉ items.map Prod.fst) →
      items.foldl (fun a pr => upsertKV a pr.1 pr.2) acc = acc ++ items := by
  intro items
  induction items with
  | nil =>
    intro acc _ _
    simp
  | cons it rest ih =>
    intro acc hnd hdisj
    obtain ⟨nm, c⟩ := it
    rw [List.map_cons, List.nodup_cons] at hnd
    have hfresh : nm ∉ acc.map Prod.fst := fun hin => hdisj nm hin (by simp)
    have hdisj2 : ∀ k ∈ (acc ++ [(nm, c)]).map Prod.fst, k ∉ rest.map Prod.fst := by
      intro k hk
      rw [List.map_append, List.mem_append] at hk
      rcases hk with hk | hk
      · intro hin
        exact hdisj k hk (List.mem_cons_of_mem _ hin)
      · simp at hk
        rw [hk]
        exact hnd.1
    have hstep : rest.foldl (fun a pr => upsertKV a pr.1 pr.2) (upsertKV acc nm c)
        = acc ++ (nm, c) :: rest := by
      rw [upsertKV_fresh acc nm c hfresh, ih (acc ++ [(nm, c)]) hnd.2 hdisj2,
        List.append_assoc]
      rfl
    exact hstep

theorem enumFrom_foldl {α β : Type} (l : List α) (g : β → α → β) :
    ∀ (s : Nat) (b : β),
      (l.enumFrom s).foldl (fun a pr => g a pr.2) b = l.foldl g b := by
  induction l with
  | nil => intro s b; rfl
  | cons x xs ih =>
    intro s b
    exact ih (s + 1) (g b x)

theorem parse_table_ok (table : ParamObject) (E : EntryMap)
    (h : parseKeysFold [] table = .ok E) (hne : E ≠ [])
    (tbl : List (String × Nat)) (h2 : entriesToTableAux [] E = .ok tbl) :
    parse_recipe_table_from_keys table = .ok (some tbl) := by
  unfold parse_recipe_table_from_keys
  rw [h]
  show (if E.isEmpty then Except.ok none
    else match entriesToTableAux [] E with
      | .ok tbl => .ok (some tbl)
      | .error e => .error e) = Except.ok (some tbl)
  rw [if_neg (by simpa using hne), h2]

/-- The key-driven pass decodes a fully literal table at any padding width:
every entry is resolved from its literal suffix digits. -/
theorem stage1_lit (w : Nat) (hw : 1 ≤ w) (items : List (String × Nat))
    (hne : items ≠ []) (h255 : ∀ pr ∈ items, pr.2 ≤ 255)
    (hnd : (items.map Prod.fst).Nodup) :
    parse_recipe_table_from_keys (mkLitTable w items) = .ok (some items) := by
  have hfold : parseKeysFold [] (mkLitTable w items)
      = .ok ((items.enumFrom 0).map (fun pr => (pr.1, some pr.2.1, some pr.2.2))) := by
    unfold mkLitTable
    rw [parseKeysFold_cons_ok (parseKeysStep_ColumnNum [] (Param.i32 items.length)),
      show items.enum = items.enumFrom 0 from rfl,
      parseKeysFold_lit items 0 [] w hw (by intro e he; simp at he) h255,
      List.nil_append]
  have hene : (items.enumFrom 0).map (fun pr => (pr.1, some pr.2.1, some pr.2.2)) ≠ [] := by
    cases items with
    | nil => exact absurd rfl hne
    | cons a l => simp [List.enumFrom]
  have h2 : entriesToTableAux []
      ((items.enumFrom 0).map (fun pr => (pr.1, some pr.2.1, some pr.2.2))) = .ok items := by
    rw [entriesAux_complete (items.enumFrom 0) [],
      enumFrom_foldl items (fun a pr => upsertKV a pr.1 pr.2) 0 [],
      foldl_upsert_fresh items [] hnd (by intro k hk; simp at hk),
      List.nil_append]
  exact parse_table_ok _ _ hfold hene items h2

/-- A table recognized by the key-driven pass short-circuits the whole
decode. -/
theorem decode_of_stage1 (table : ParamObject) (tbl : List (String × Nat))
    (h : parse_recipe_table_from_keys table = .ok (some tbl)) :
    decodeRecipeTable table = .ok tbl := by
  unfold decodeRecipeTable
  rw [h]

/-- Stage one short-circuits the whole table decode. -/
theorem decode_lit (w : Nat) (hw : 1 ≤ w) (items : List (String × Nat))
    (hne : items ≠ []) (h255 : ∀ pr ∈ items, pr.2 ≤ 255)
    (hnd : (items.map Prod.fst).Nodup) :
    decodeRecipeTable (mkLitTable w items) = .ok items :=
  decode_of_stage1 (mkLitTable w items) items (stage1_lit w hw items hne h255 hnd)

/-! ## The lazily built hash lookup table -/

theorem identify_isSome_of_mem {h : Nat} {km : RecipeKeyMatch}
    (hmem : (h, km) ∈ recipe_key_entries) :
    (identify_recipe_key h).isSome = true := by
  have hf : (h, km) ∈ recipe_key_entries.filter (fun e => e.1 == h) :=
    List.mem_filter.mpr ⟨hmem, by simp⟩
  have hne : recipe_key_entries.filter (fun e => e.1 == h) ≠ [] :=
    List.ne_nil_of_mem hf
  have hs : (recipe_key_entries.filter (fun e => e.1 == h)).getLast?.isSome = true :=
    List.getLast?_isSome.mpr hne
  unfold identify_recipe_key
  cases hg : (recipe_key_entries.filter (fun e => e.1 == h)).getLast? with
  | none =>
    rw [hg] at hs
    simp at hs
  | some x => rfl

theorem nameKey_mem (idx w : Nat) (hidx : idx < 1000) (hw : w = 2 ∨ w = 3) :
    (crc32 (itemNameKeyC idx w), RecipeKeyMatch.mk RecipeKeyKind.ItemName idx)
      ∈ recipe_key_entries := by
  unfold recipe_key_entries
  rw [List.mem_flatten]
  refine ⟨(List.range 1000).flatMap (fun i =>
    [(crc32 (itemNameKeyC i w), RecipeKeyMatch.mk RecipeKeyKind.ItemName i),
     (crc32 (itemNumKeyC i w), RecipeKeyMatch.mk RecipeKeyKind.ItemNum i)]), ?_, ?_⟩
  · rw [List.mem_map]
    refine ⟨w, ?_, rfl⟩
    rcases hw with h | h <;> simp [h]
  · rw [List.mem_flatMap]
    exact ⟨idx, List.mem_range.mpr hidx, by simp⟩

theorem numKey_mem (idx w : Nat) (hidx : idx < 1000) (hw : w = 2 ∨ w = 3) :
    (crc32 (itemNumKeyC idx w), RecipeKeyMatch.mk RecipeKeyKind.ItemNum idx)
      ∈ recipe_key_entries := by
  unfold recipe_key_entries
  rw [List.mem_flatten]
  refine ⟨(List.range 1000).flatMap (fun i =>
    [(crc32 (itemNameKeyC i w), RecipeKeyMatch.mk RecipeKeyKind.ItemName i),
     (crc32 (itemNumKeyC i w), RecipeKeyMatch.mk RecipeKeyKind.ItemNum i)]), ?_, ?_⟩
  · rw [List.mem_map]
    refine ⟨w, ?_, rfl⟩
    rcases hw with h | h <;> simp [h]
  · rw [List.mem_flatMap]
    exact ⟨idx, List.mem_range.mpr hidx, by simp⟩

theorem identify_bounded (idx w : Nat) (hidx : idx < 1000) (hw : w = 2 ∨ w = 3) :
    (identify_recipe_key (crc32 (itemNameKeyC idx w))).isSome = true
    ∧ (identify_recipe_key (crc32 (itemNumKeyC idx w))).isSome = true :=
  ⟨identify_isSome_of_mem (nameKey_mem idx w hidx hw),
   identify_isSome_of_mem (numKey_mem idx w hidx hw)⟩

theorem hashed_str_digits (hs : Nat) :
    ∀ c ∈ (PKey.hashed hs).str, c.isDigit = true :=
  fun c hc => natToDigitsAux_digits hs hs c hc

theorem parseKeysStep_hashed_name (m : EntryMap) (hs i : Nat) (nm : String)
    (hid : identify_recipe_key hs = some (RecipeKeyMatch.mk RecipeKeyKind.ItemName i)) :
    parseKeysStep m (PKey.hashed hs, Param.str64 nm) = .ok (btSetName m i nm) := by
  have hd1 : parse_item_index (PKey.hashed hs).str "ItemName".toList = none :=
    parse_item_index_digits_none _ _ 'I' rfl (by decide) (hashed_str_digits hs)
  have hd2 : parse_item_index (PKey.hashed hs).str "ItemNum".toList = none :=
    parse_item_index_digits_none _ _ 'I' rfl (by decide) (hashed_str_digits hs)
  simp only [parseKeysStep, hd1, hd2, PKey.hash, hid, Param.as_safe_string]

theorem parseKeysStep_hashed_num (m : EntryMap) (hs i c : Nat) (hc : c ≤ 255)
    (hid : identify_recipe_key hs = some (RecipeKeyMatch.mk RecipeKeyKind.ItemNum i)) :
    parseKeysStep m (PKey.hashed hs, Param.i32 c) = .ok (btSetNum m i c) := by
  have hd1 : parse_item_index (PKey.hashed hs).str "ItemName".toList = none :=
    parse_item_index_digits_none _ _ 'I' rfl (by decide) (hashed_str_digits hs)
  have hd2 : parse_item_index (PKey.hashed hs).str "ItemNum".toList = none :=
    parse_item_index_digits_none _ _ 'I' rfl (by decide) (hashed_str_digits hs)
  simp only [parseKeysStep, hd1, hd2, PKey.hash, hid, parse_recipe_count, Param.as_int]
  rw [if_pos (by constructor <;> omega)]
  simp

/-! ## The width ladder and the re-derived count retry -/

theorem process_width_retry (table : ParamObject) (count : Nat) (e : String)
    (h : processAt table 2 count = .error e) :
    process table count = processAt table 3 count := by
  unfold process
  rw [h]

theorem decode_rederive (table : ParamObject) (n : Int) (e : String)
    (h1 : parse_recipe_table_from_keys table = .ok none)
    (h2 : pobjGet table "ColumnNum".toList = some (Param.i32 n))
    (h3 : process table n.toNat = .error e) :
    decodeRecipeTable table = process table ((table.length - 1) / 2) := by
  unfold decodeRecipeTable
  rw [h1]
  show (match pobjGet table "ColumnNum".toList with
    | none => .error "Recipe table missing column count"
    | some p =>
      match p.as_int with
      | .error e => .error e
      | .ok items_count =>
        match process table items_count.toNat with
        | .ok v => .ok v
        | .error _ => process table ((table.length - 1) / 2))
    = process table ((table.length - 1) / 2)
  rw [h2]
  show (match process table n.toNat with
    | .ok v => .ok v
    | .error _ => process table ((table.length - 1) / 2))
    = process table ((table.length - 1) / 2)
  rw [h3]

/-! ## Partial entries abort the record -/

theorem stage1_missing_count (table : ParamObject) (i : Nat) (nm : String)
    (rest : EntryMap)
    (h : parseKeysFold [] table = .ok ((i, some nm, none) :: rest)) :
    parse_recipe_table_from_keys table = .error "Recipe missing item count" := by
  unfold parse_recipe_table_from_keys
  rw [h]
  show (if ((i, some nm, none) :: rest).isEmpty then Except.ok none
    else match entriesToTableAux [] ((i, some nm, none) :: rest) with
      | .ok tbl => .ok (some tbl)
      | .error e => .error e) = Except.error "Recipe missing item count"
  rw [if_neg (by simp)]
  rfl

theorem stage1_missing_name (table : ParamObject) (i : Nat) (y : Option Nat)
    (rest : EntryMap)
    (h : parseKeysFold [] table = .ok ((i, none, y) :: rest)) :
    parse_recipe_table_from_keys table = .error "Recipe missing item name" := by
  unfold parse_recipe_table_from_keys
  rw [h]
  show (if ((i, none, y) :: rest).isEmpty then Except.ok none
    else match entriesToTableAux [] ((i, none, y) :: rest) with
      | .ok tbl => .ok (some tbl)
      | .error e => .error e) = Except.error "Recipe missing item name"
  rw [if_neg (by simp)]
  rfl

theorem decodeTables_abort (pio : List (String × ParamObject))
    (nmT : String) (rest : List String) (tblObj : ParamObject) (e : String)
    (h1 : lookupKV pio nmT = some tblObj)
    (h2 : decodeRecipeTable tblObj = .error e) :
    decodeTables pio (nmT :: rest) = .error e := by
  unfold decodeTables
  rw [h1]
  show (match decodeRecipeTable tblObj with
    | .error e => .error e
    | .ok entries =>
      match decodeTables pio rest with
      | .ok out => .ok ((nmT, entries) :: out)
      | .error e => .error e) = Except.error e
  rw [h2]

/-! ## Concrete tables for the retry and abort paths -/

/-- A table on which the key-driven pass recognizes nothing yields no
stage-one result. -/
theorem parse_table_none (table : ParamObject)
    (h : parseKeysFold [] table = .ok ([] : EntryMap)) :
    parse_recipe_table_from_keys table = .ok none := by
  unfold parse_recipe_table_from_keys
  rw [h]
  rfl

theorem ladder_stage1 : parse_recipe_table_from_keys ladderTbl = .ok none := by
  refine parse_table_none ladderTbl ?_
  show parseKeysFold [] [(PKey.lit "ColumnNum", Param.i32 7)] = .ok []
  rw [parseKeysFold_cons_ok (parseKeysStep_ColumnNum [] (Param.i32 7))]
  rfl

set_option maxRecDepth 100000 in
theorem ladder_process7 : process ladderTbl 7 = .error "Recipe missing item name" := rfl

set_option maxRecDepth 100000 in
theorem abort_fold : parseKeysFold [] abortTbl = .ok [(0, some "Apple", none)] := rfl

set_option maxRecDepth 100000 in
theorem abort_fold2 : parseKeysFold [] abortTbl2 = .ok [(0, none, some 3)] := rfl

set_option maxRecDepth 100000 in
theorem abort_decode : decodeRecipeTable abortTbl = .error "Recipe missing item count" := rfl

set_option maxRecDepth 100000 in
set_option maxHeartbeats 8000000 in
/-- The precomputed hash of ItemName02 resolves through the lookup table to
the name field at index 2 (computed over the whole table). -/
theorem identify_ItemName02 :
    identify_recipe_key (crc32 (itemNameKeyC 2 2))
      = some (RecipeKeyMatch.mk RecipeKeyKind.ItemName 2) := by
  decide

set_option maxRecDepth 100000 in
set_option maxHeartbeats 8000000 in
/-- The precomputed hash of ItemNum02 resolves through the lookup table to
the count field at index 2 (computed over the whole table). -/
theorem identify_ItemNum02 :
    identify_recipe_key (crc32 (itemNumKeyC 2 2))
      = some (RecipeKeyMatch.mk RecipeKeyKind.ItemNum 2) := by
  decide

/-- C9: decoding a recipe table resolves entries by (1) matching literal
suffix digits at any one fixed zero-padding width in the key-driven pass
(the whole table decodes); (2) the count-driven fallback tries width 2 and
on failure retries at the alternate width 3; (3) when the declared
ColumnNum count still fails, the decode retries with a count re-derived
from the number of keys present; (4) keys stored as precomputed hash codes
resolve through the lazily built hash-to-(kind, index) table, which covers
every index below 1000 at both paddings, and a hashed key identified as a
name or count field lands in the matching entry slot; and an index with a
name but no count, or a count but no name, aborts decoding with an error
that propagates to the whole record. -/
theorem C9_recipe_decoding :
    (∀ (w : Nat) (items : List (String × Nat)), 1 ≤ w → items ≠ [] →
      (∀ pr ∈ items, pr.2 ≤ 255) → (items.map Prod.fst).Nodup →
      decodeRecipeTable (mkLitTable w items) = .ok items)
    ∧ (∀ idx w : Nat, idx < 1000 → w = 2 ∨ w = 3 →
      (identify_recipe_key (crc32 (itemNameKeyC idx w))).isSome = true
      ∧ (identify_recipe_key (crc32 (itemNumKeyC idx w))).isSome = true)
    ∧ (∀ (m : EntryMap) (hs i : Nat) (nm : String),
      identify_recipe_key hs = some (RecipeKeyMatch.mk RecipeKeyKind.ItemName i) →
      parseKeysStep m (PKey.hashed hs, Param.str64 nm) = .ok (btSetName m i nm))
    ∧ (∀ (m : EntryMap) (hs i c : Nat), c ≤ 255 →
      identify_recipe_key hs = some (RecipeKeyMatch.mk RecipeKeyKind.ItemNum i) →
      parseKeysStep m (PKey.hashed hs, Param.i32 c) = .ok (btSetNum m i c))
    ∧ (∀ (table : ParamObject) (count : Nat) (e : String),
      processAt table 2 count = .error e →
      process table count = processAt table 3 count)
    ∧ (∀ (table : ParamObject) (n : Int) (e : String),
      parse_recipe_table_from_keys table = .ok none →
      pobjGet table "ColumnNum".toList = some (Param.i32 n) →
      process table n.toNat = .error e →
      decodeRecipeTable table = process table ((table.length - 1) / 2))
    ∧ (∀ (table : ParamObject) (i : Nat) (nm : String) (rest : EntryMap),
      parseKeysFold [] table = .ok ((i, some nm, none) :: rest) →
      parse_recipe_table_from_keys table = .error "Recipe missing item count")
    ∧ (∀ (table : ParamObject) (i : Nat) (y : Option Nat) (rest : EntryMap),
      parseKeysFold [] table = .ok ((i, none, y) :: rest) →
      parse_recipe_table_from_keys table = .error "Recipe missing item name")
    ∧ (∀ (pio : List (String × ParamObject)) (nmT : String) (rest : List String)
      (tblObj : ParamObject) (e : String),
      lookupKV pio nmT = some tblObj → decodeRecipeTable tblObj = .error e →
      decodeTables pio (nmT :: rest) = .error e) :=
  ⟨fun w items hw hne h255 hnd => decode_lit w hw items hne h255 hnd,
   fun idx w hidx hw => identify_bounded idx w hidx hw,
   fun m hs i nm hid => parseKeysStep_hashed_name m hs i nm hid,
   fun m hs i c hc hid => parseKeysStep_hashed_num m hs i c hc hid,
   fun table count e h => process_width_retry table count e h,
   fun table n e h1 h2 h3 => decode_rederive table n e h1 h2 h3,
   fun table i nm rest h => stage1_missing_count table i nm rest h,
   fun table i y rest h => stage1_missing_name table i y rest h,
   fun pio nmT rest tblObj e h1 h2 => decodeTables_abort pio nmT rest tblObj e h1 h2⟩

set_option maxRecDepth 100000 in
set_option maxHeartbeats 1000000 in
/-- Witness for C9: each leg evaluated at a concrete input — a one-item
literal table at width 2; the hashed ItemName02 and ItemNum02 keys; the
width retry on an empty table; the count-only table forcing the re-derived
retry; and the name-without-count table aborting the record decode. -/
theorem C9_recipe_decoding_witness :
    decodeRecipeTable (mkLitTable 2 [("Apple", 2)]) = .ok [("Apple", 2)]
    ∧ (identify_recipe_key (crc32 (itemNameKeyC 2 2))).isSome = true
    ∧ parseKeysStep [] (PKey.hashed (crc32 (itemNameKeyC 2 2)), Param.str64 "Apple")
        = .ok (btSetName [] 2 "Apple")
    ∧ parseKeysStep [] (PKey.hashed (crc32 (itemNumKeyC 2 2)), Param.i32 3)
        = .ok (btSetNum [] 2 3)
    ∧ process [] 1 = processAt [] 3 1
    ∧ decodeRecipeTable ladderTbl = process ladderTbl 0
    ∧ parse_recipe_table_from_keys abortTbl = .error "Recipe missing item count"
    ∧ parse_recipe_table_from_keys abortTbl2 = .error "Recipe missing item name"
    ∧ decodeTables [("T", abortTbl)] ["T"] = .error "Recipe missing item count" := by
  refine ⟨?_, ?_, ?_, ?_, ?_, ?_, ?_, ?_, ?_⟩
  · exact C9_recipe_decoding.1 2 [("Apple", 2)] (by decide) (by decide)
      (by decide) (by decide)
  · exact (C9_recipe_decoding.2.1 2 2 (by decide) (Or.inl rfl)).1
  · exact C9_recipe_decoding.2.2.1 [] (crc32 (itemNameKeyC 2 2)) 2 "Apple"
      identify_ItemName02
  · exact C9_recipe_decoding.2.2.2.1 [] (crc32 (itemNumKeyC 2 2)) 2 3 (by decide)
      identify_ItemNum02
  · exact C9_recipe_decoding.2.2.2.2.1 [] 1 "Recipe missing item name" rfl
  · exact C9_recipe_decoding.2.2.2.2.2.1 ladderTbl 7 "Recipe missing item name"
      ladder_stage1 (by decide) ladder_process7
  · exact C9_recipe_decoding.2.2.2.2.2.2.1 abortTbl 0 "Apple" [] abort_fold
  · exact C9_recipe_decoding.2.2.2.2.2.2.2.1 abortTbl2 0 (some 3) [] abort_fold2
  · exact C9_recipe_decoding.2.2.2.2.2.2.2.2 [("T", abortTbl)] "T" [] abortTbl
      "Recipe missing item count" (by decide) abort_decode
